import Mathlib

/-!
Verification of the weighted-graph module (`graph.py`) of the
`findHamiltonianCycle` repository.

The Python classes `Graph`, `Graph.Node` and `Graph.Edge` are shallowly
embedded as follows:

* A `Node` stores its `value`, its `edges` (a Python `set` of `Edge`
  objects; since `Edge` has no equality override, the set keeps one
  entry per inserted object, so it is modelled as a list in insertion
  order — the set's iteration order is unspecified in Python, we fix
  insertion order) and its `parents` (a Python `dict` mapping nodes to
  edges; nodes hash by value, so it is modelled as an association list
  from values to the stored edge's weight, with dict overwrite
  semantics).
* A `Graph` stores `self.graph` (a dict from value to `Node`, modelled
  as an insertion-ordered association list) and the counter
  `self.n_vertex`.
* Mutating statements are modelled by functional updates; `print`
  emission is modelled by returning the emitted values as a list;
  raised exceptions (`ValueError`, `KeyError`) are modelled with
  `Except`; the unbounded `while` loops are modelled with explicit
  fuel, adding a distinguished `outOfFuel` result that stands for
  divergence and is proved unreachable under the relevant hypotheses.
* `random.choice` (start-node selection) is modelled by quantifying
  over the chosen start node.
-/

deriving instance DecidableEq for Except

namespace FindHam

variable {V : Type} [DecidableEq V] {β : Type}

/-- Model of `Graph.Node`: value, incident-edge list (`edges`) and the
`parents` dict (key = origin value, stored datum = the weight of the
edge object kept there). -/
structure Node (V : Type) where
  value : V
  edges : List (V × Int)
  parents : List (V × Int)
deriving DecidableEq

/-- Model of `Graph`: the `self.graph` dict as an insertion-ordered
association list plus the `self.n_vertex` counter. -/
structure Graph (V : Type) where
  nodes : List (V × Node V)
  n_vertex : Nat
deriving DecidableEq

/-- First-match association-list lookup (Python dict lookup). -/
def alookup (k : V) : List (V × β) → Option β
  | [] => none
  | p :: rest => if p.1 = k then some p.2 else alookup k rest

/-- A fresh node, as created by `Node.__init__`. -/
def emptyNode (v : V) : Node V :=
  ⟨v, [], []⟩

/-- Model of `Graph.add_or_get_node`: create the node (appending the
new dict entry) and bump `n_vertex` when the value is new. -/
def add_or_get_node (g : Graph V) (value : V) : Graph V :=
  if (alookup value g.nodes).isSome then g
  else ⟨g.nodes ++ [(value, emptyNode value)], g.n_vertex + 1⟩

/-- Apply `f` to the node stored under key `k` (models mutation of the
shared `Node` object). -/
def updateNode (ns : List (V × Node V)) (k : V) (f : Node V → Node V) :
    List (V × Node V) :=
  ns.map (fun p => if p.1 = k then (p.1, f p.2) else p)

/-- Python dict assignment `parents[k] = edge-with-weight w`: overwrite
in place when the key exists, append otherwise. -/
def setParent (ps : List (V × Int)) (k : V) (w : Int) : List (V × Int) :=
  if (alookup k ps).isSome then ps.map (fun p => if p.1 = k then (k, w) else p)
  else ps ++ [(k, w)]

/-- One iteration of the constructor loop of `Graph.__init__`: ensure
both endpoints exist, append `Edge(to, weight)` to `from`'s edge set,
and set `to.parents[from]` to that edge. -/
def addTriple (g : Graph V) (t : V × V × Int) : Graph V :=
  ⟨updateNode
      (updateNode (add_or_get_node (add_or_get_node g t.1) t.2.1).nodes t.1
        (fun nd => { nd with edges := nd.edges ++ [(t.2.1, t.2.2)] }))
      t.2.1
      (fun nd => { nd with parents := setParent nd.parents t.1 t.2.2 }),
    (add_or_get_node (add_or_get_node g t.1) t.2.1).n_vertex⟩

/-- Model of `Graph.__init__` on an input list of triples. -/
def buildGraph (input : List (V × V × Int)) : Graph V :=
  input.foldl addTriple ⟨[], 0⟩

/-- The node values present in the graph, in insertion order. -/
def keys (g : Graph V) : List V :=
  g.nodes.map Prod.fst

/-- The node stored under `v` (a fresh empty node if `v` is absent; all
uses in the source access nodes that are present). -/
def nodeOf (g : Graph V) (v : V) : Node V :=
  (alookup v g.nodes).getD (emptyNode v)

/-- The edge set of the node with value `v`. -/
def edgesOf (g : Graph V) (v : V) : List (V × Int) :=
  (nodeOf g v).edges

/-- The parents dict of the node with value `v`. -/
def parentsOf (g : Graph V) (v : V) : List (V × Int) :=
  (nodeOf g v).parents

/-- Spec of the edge set after construction: one entry `(to, w)` per
input triple `(v, to, w)`, in input order. -/
def edgesFromInput (input : List (V × V × Int)) (v : V) : List (V × Int) :=
  (input.filter (fun t => t.1 = v)).map (fun t => (t.2.1, t.2.2))

/-- Spec of the parents lookup after construction: the weight of the
last input triple `(u, v, _)`, if any. -/
def lastWeight (u v : V) : List (V × V × Int) → Option Int
  | [] => none
  | t :: rest =>
      match lastWeight u v rest with
      | some w => some w
      | none => if t.1 = u ∧ t.2.1 = v then some t.2.2 else none

/-- The error outcomes of the module (spec section 7 taxonomy):
`invalidArgument` is the `ValueError` of `traverse`, `notAdjacent` the
`ValueError` of `_weight_between_nodes`, `keyError` the `KeyError`
raised by the `node.parents[node]` access in `_weight_between_nodes`,
`noUnvisitedNeighbor` the `ValueError` raised by `min` on an empty
sequence in `_nearest_not_passed_node`, and `outOfFuel` stands for a
diverging `while` loop (proved unreachable under the hypotheses of the
theorems below). -/
inductive Err where
  | invalidArgument
  | notAdjacent
  | keyError
  | noUnvisitedNeighbor
  | outOfFuel
deriving DecidableEq

/-- Model of `Graph._ore_theorem`: `False` if `n_vertex < 3`, otherwise
`False` exactly when some ordered pair of distinct nodes is
non-adjacent (neither is a key of the other's parents dict) with edge
sets of total size `< n_vertex`. -/
def ore_theorem (g : Graph V) : Bool :=
  if g.n_vertex < 3 then false
  else
    !(g.nodes.any (fun p1 => g.nodes.any (fun p2 =>
      decide (p1.2.value ≠ p2.2.value) &&
      (alookup p2.2.value p1.2.parents).isNone &&
      (alookup p1.2.value p2.2.parents).isNone &&
      decide (p1.2.edges.length + p2.2.edges.length < g.n_vertex))))

/-- Model of `Graph._weight_between_nodes`, including the slip in its
second branch: the branch condition tests `node in adjacent_node.parents`
but the returned value indexes `node.parents[node]`, which raises
`KeyError` when `node` is not a key of its own parents dict. -/
def weight_between_nodes (g : Graph V) (node adjacent : V) : Except Err Int :=
  match alookup adjacent (parentsOf g node) with
  | some w => .ok w
  | none =>
      if (alookup node (parentsOf g adjacent)).isSome then
        match alookup node (parentsOf g node) with
        | some w => .ok w
        | none => .error .keyError
      else .error .notAdjacent

/-- Python `min` over a nonempty list of edges using `Edge.__lt__`
(strictly-less on weights, so the first minimum wins). -/
def minEdge? : List (V × Int) → Option (V × Int)
  | [] => none
  | e :: rest => some (rest.foldl (fun best x => if x.2 < best.2 then x else best) e)

/-- Model of `Graph._nearest_not_passed_node`: the target of a
minimum-weight edge to an unvisited node, or the `min`-on-empty error. -/
def nearest_not_passed_node (g : Graph V) (v : V) (passed : Finset V) : Except Err V :=
  match minEdge? ((edgesOf g v).filter (fun e => decide (e.1 ∉ passed))) with
  | none => .error .noUnvisitedNeighbor
  | some e => .ok e.1

/-- Result of `Graph.find_hamiltonian_cycle`: `noGuarantee` models the
bare `return 0` taken when the sufficiency check fails (nothing is
printed), `found route total` models printing the route and returning
its accumulated length. -/
inductive HamOutcome (V : Type) where
  | noGuarantee : HamOutcome V
  | found : List V → Int → HamOutcome V
deriving DecidableEq

/-- The `while len(passed) != self.n_vertex` loop of
`find_hamiltonian_cycle`, with fuel; returns the extended route, the
accumulated weight and the final current node. -/
def hamLoop (g : Graph V) :
    Nat → V → Finset V → List V → Int → Except Err (List V × Int × V)
  | fuel, cur, passed, route, total =>
    if passed.card = g.n_vertex then .ok (route, total, cur)
    else
      match fuel with
      | 0 => .error .outOfFuel
      | fuel + 1 => do
          let nearest ← nearest_not_passed_node g cur passed
          let w ← weight_between_nodes g nearest cur
          hamLoop g fuel nearest (insert nearest passed) (route ++ [nearest]) (total + w)

/-- Model of `Graph.find_hamiltonian_cycle` with an explicit start node
(standing for the `random.choice` pick or the caller-supplied
`start_node`). -/
def find_hamiltonian_cycle (g : Graph V) (start : V) : Except Err (HamOutcome V) :=
  if ore_theorem g = false then .ok .noGuarantee
  else do
    let r ← hamLoop g g.n_vertex start {start} [start] 0
    let w ← weight_between_nodes g start r.2.2
    .ok (.found (r.1 ++ [start]) (r.2.1 + w))

/-- First edge target in the list that is not yet visited (the scan of
`_dfs_without_recur`). -/
def firstUnvisited (edges : List (V × Int)) (p : Finset V) : Option V :=
  match edges with
  | [] => none
  | e :: rest => if e.1 ∈ p then firstUnvisited rest p else some e.1

/-- Model of `Graph._dfs_without_recur` on an explicit stack (head =
top): peek, emit and mark if new, push the first unvisited neighbour or
pop.  `none` is fuel exhaustion. -/
def dfs_without_recur (g : Graph V) :
    Nat → List V → Finset V → Option (List V × Finset V)
  | _, [], p => some ([], p)
  | 0, _ :: _, _ => none
  | fuel + 1, v :: rest, p =>
      let out0 : List V := if v ∈ p then [] else [v]
      let p1 := insert v p
      match firstUnvisited (edgesOf g v) p1 with
      | some w => (dfs_without_recur g fuel (w :: v :: rest) p1).map
          (fun r => (out0 ++ r.1, r.2))
      | none => (dfs_without_recur g fuel rest p1).map
          (fun r => (out0 ++ r.1, r.2))

/-- The `for edge in node.edges` loop of `_dfs_with_recur`,
parametrised by the recursive call. -/
def dfsChildren (rec_ : V → Finset V → Option (List V × Finset V)) :
    List (V × Int) → Finset V → Option (List V × Finset V)
  | [], p => some ([], p)
  | e :: rest, p =>
      if e.1 ∈ p then dfsChildren rec_ rest p
      else
        match rec_ e.1 p with
        | none => none
        | some (o1, p1) =>
            (dfsChildren rec_ rest p1).map (fun r => (o1 ++ r.1, r.2))

/-- Model of `Graph._dfs_with_recur`: emit and mark the node, then
recurse into each unvisited neighbour in edge order. -/
def dfs_with_recur (g : Graph V) :
    Nat → V → Finset V → Option (List V × Finset V)
  | 0, _, _ => none
  | fuel + 1, v, p =>
      (dfsChildren (fun w q => dfs_with_recur g fuel w q) (edgesOf g v)
        (insert v p)).map (fun r => (v :: r.1, r.2))

/-- The `for edge in node.edges` enqueue loop of `_bfs`: enqueue each
unvisited neighbour, marking it visited at enqueue time. -/
def enqueueAll (edges : List (V × Int)) (p : Finset V) : List V × Finset V :=
  match edges with
  | [] => ([], p)
  | e :: rest =>
      if e.1 ∈ p then enqueueAll rest p
      else
        let r := enqueueAll rest (insert e.1 p)
        (e.1 :: r.1, r.2)

/-- The `while not queue.empty()` loop of `_bfs` (head of the list =
front of the queue): dequeue, mark, emit, enqueue unvisited
neighbours. -/
def bfsLoop (g : Graph V) :
    Nat → List V → Finset V → Option (List V × Finset V)
  | _, [], p => some ([], p)
  | 0, _ :: _, _ => none
  | fuel + 1, v :: qrest, p =>
      let p1 := insert v p
      let st := enqueueAll (edgesOf g v) p1
      (bfsLoop g fuel (qrest ++ st.1) st.2).map (fun r => (v :: r.1, r.2))

/-- Fuel that is proved sufficient for `bfsLoop` started on one node. -/
def bfsFuel (g : Graph V) : Nat := g.n_vertex + 1

/-- Fuel that is proved sufficient for `dfs_without_recur` started on a
one-node stack. -/
def dfsIterFuel (g : Graph V) : Nat := 4 * g.n_vertex + 1

/-- Fuel that is proved sufficient for `dfs_with_recur`. -/
def dfsRecFuel (g : Graph V) : Nat := g.n_vertex + 1

/-- Model of `Graph._bfs` as invoked by `traverse`. -/
def bfs (g : Graph V) (v : V) (p : Finset V) : Option (List V × Finset V) :=
  bfsLoop g (bfsFuel g) [v] p

/-- The `for node in self.graph.values()` driver loop of
`Graph.traverse`: launch the strategy from every not-yet-visited node. -/
def traverseFold (strat : V → Finset V → Option (List V × Finset V)) :
    List V → Finset V → Option (List V × Finset V)
  | [], p => some ([], p)
  | k :: rest, p =>
      if k ∈ p then traverseFold strat rest p
      else
        match strat k p with
        | none => none
        | some (o, p') =>
            (traverseFold strat rest p').map (fun r => (o ++ r.1, r.2))

/-- Run one traversal strategy over every component from the full key
list with an initially empty `passed` set, returning the emitted
values. -/
def traverseRun (g : Graph V)
    (strat : V → Finset V → Option (List V × Finset V)) : Except Err (List V) :=
  match traverseFold strat (keys g) ∅ with
  | none => .error .outOfFuel
  | some r => .ok r.1

/-- Model of `Graph.traverse`: dispatch on the `how` string, raising
`ValueError` (`invalidArgument`) on anything else; returns the emitted
node values in order. -/
def traverse (g : Graph V) (how : String) : Except Err (List V) :=
  if how = "bfs" then traverseRun g (fun v p => bfs g v p)
  else if how = "dfs" then
    traverseRun g (fun v p => dfs_without_recur g (dfsIterFuel g) [v] p)
  else if how = "rdfs" then
    traverseRun g (fun v p => dfs_with_recur g (dfsRecFuel g) v p)
  else .error .invalidArgument

/-- `match`-style option fallback used to state the parents-dict
characterization. -/
def optOr (a b : Option Int) : Option Int :=
  match a with
  | some w => some w
  | none => b

/-- Structural invariants of every graph produced by the constructor. -/
structure GraphWF (g : Graph V) : Prop where
  keysNodup : (keys g).Nodup
  countEq : g.n_vertex = (keys g).length
  valueEq : ∀ p ∈ g.nodes, p.2.value = p.1
  edgeClosed : ∀ v, ∀ e ∈ edgesOf g v, e.1 ∈ keys g
  parentsNodup : ∀ v, ((parentsOf g v).map Prod.fst).Nodup

/-- Non-adjacency as the specification states it: no edge between the
two values in either direction. -/
def adjacentByEdges (g : Graph V) (u v : V) : Prop :=
  (∃ w, (v, w) ∈ edgesOf g u) ∨ (∃ w, (u, w) ∈ edgesOf g v)

/-- Total weight of the looked-up edges along consecutive entries of a
route, with the lookup argument order used by `find_hamiltonian_cycle`
(`_weight_between_nodes(next, previous)`). -/
def chainWeight (g : Graph V) : List V → Except Err Int
  | a :: b :: rest =>
      match weight_between_nodes g b a, chainWeight g (b :: rest) with
      | .ok w, .ok s => .ok (w + s)
      | .error e, _ => .error e
      | .ok _, .error e => .error e
  | _ => pure 0

/-- The example graph of the module (the hard-coded `data` list): the
complete graph on A, B, C, D with both orientations of every edge. -/
def exampleGraph : Graph Char :=
  buildGraph
    [('A', 'B', 5), ('B', 'A', 5), ('A', 'C', 6), ('C', 'A', 6),
     ('A', 'D', 8), ('D', 'A', 8), ('B', 'C', 7), ('C', 'B', 7),
     ('B', 'D', 10), ('D', 'B', 10), ('C', 'D', 3), ('D', 'C', 3)]

/-- An input on which the sufficiency check passes although vertex 2
has an empty edge set (all its incidences were given with 2 as the
target value only). -/
def stuckGraph : Graph Nat :=
  buildGraph [(0, 1, 1), (0, 2, 1), (1, 2, 1)]

/-- One asymmetric triple: an edge is recorded from 0 to 1 only. -/
def oneEdgeGraph : Graph Nat :=
  buildGraph [(0, 1, 5)]

/-- The vertex set of a graph as a finite set. -/
def vertexSet (g : Graph V) : Finset V :=
  (keys g).toFinset

/-- Bookkeeping quantity for the fuel bound of the iterative
depth-first traversal: an unmarked stack top is about to be marked. -/
def dfsSlack (stack : List V) (p : Finset V) : Nat :=
  match stack with
  | [] => 0
  | v :: _ => if v ∈ p then 0 else 3

/-! ### Association-list lemmas -/

theorem alookup_nil (k : V) : alookup k ([] : List (V × β)) = none := rfl

theorem alookup_cons (k : V) (p : V × β) (rest : List (V × β)) :
    alookup k (p :: rest) = if p.1 = k then some p.2 else alookup k rest := rfl

theorem alookup_append (k : V) (l1 l2 : List (V × β)) :
    alookup k (l1 ++ l2) =
      match alookup k l1 with
      | some b => some b
      | none => alookup k l2 := by
  induction l1 with
  | nil => simp [alookup]
  | cons p rest ih =>
      by_cases h : p.1 = k <;> simp [alookup_cons, h, ih]

theorem alookup_eq_none_iff (k : V) (l : List (V × β)) :
    alookup k l = none ↔ k ∉ l.map Prod.fst := by
  induction l with
  | nil => simp [alookup]
  | cons p rest ih =>
      rw [alookup_cons]
      by_cases h : p.1 = k
      · simp [h]
      · rw [if_neg h, List.map_cons]
        simp only [List.mem_cons, not_or]
        constructor
        · intro hn
          exact ⟨fun he => h he.symm, ih.mp hn⟩
        · intro hn
          exact ih.mpr hn.2

theorem alookup_mem {k : V} {l : List (V × β)} {b : β}
    (h : alookup k l = some b) : (k, b) ∈ l := by
  induction l with
  | nil => simp [alookup] at h
  | cons p rest ih =>
      rw [alookup_cons] at h
      by_cases hp : p.1 = k
      · rw [if_pos hp] at h
        obtain rfl : p.2 = b := Option.some.inj h
        subst hp
        rw [Prod.mk.eta]
        exact List.mem_cons_self p rest
      · rw [if_neg hp] at h
        exact List.mem_cons_of_mem _ (ih h)

theorem alookup_isSome_iff (k : V) (l : List (V × β)) :
    (alookup k l).isSome = true ↔ k ∈ l.map Prod.fst := by
  rcases ho : alookup k l with _ | b
  · rw [alookup_eq_none_iff] at ho
    simp [ho]
  · have : k ∈ l.map Prod.fst := List.mem_map.mpr ⟨(k, b), alookup_mem ho, rfl⟩
    simp [this]

theorem alookup_of_mem_nodup {k : V} {l : List (V × β)} {b : β}
    (hmem : (k, b) ∈ l) (hnd : (l.map Prod.fst).Nodup) :
    alookup k l = some b := by
  induction l with
  | nil => simp at hmem
  | cons p rest ih =>
      simp only [List.map_cons, List.nodup_cons] at hnd
      rcases List.mem_cons.mp hmem with h | h
      · rw [← h, alookup_cons, if_pos rfl]
      · rw [alookup_cons]
        have hk : k ∈ rest.map Prod.fst :=
          List.mem_map.mpr ⟨(k, b), h, rfl⟩
        have : p.1 ≠ k := fun he => hnd.1 (he ▸ hk)
        rw [if_neg this]
        exact ih h hnd.2

/-! ### Characterization of the constructed graph -/

theorem keys_updateNode (ns : List (V × Node V)) (k : V) (f : Node V → Node V) :
    (updateNode ns k f).map Prod.fst = ns.map Prod.fst := by
  induction ns with
  | nil => rfl
  | cons p rest ih =>
      by_cases h : p.1 = k <;> simp [updateNode, h] at ih ⊢ <;> exact ih

theorem alookup_updateNode (ns : List (V × Node V)) (k v : V) (f : Node V → Node V) :
    alookup v (updateNode ns k f) =
      if v = k then (alookup k ns).map f else alookup v ns := by
  induction ns with
  | nil => simp [updateNode, alookup]
  | cons p rest ih =>
      unfold updateNode at ih ⊢
      rw [List.map_cons]
      by_cases hv : v = k
      · subst hv
        rw [if_pos rfl] at ih ⊢
        by_cases hpk : p.1 = v
        · simp [alookup_cons, hpk]
        · simp only [if_neg hpk, alookup_cons, ih]
      · rw [if_neg hv] at ih ⊢
        by_cases hpk : p.1 = k
        · have hne : p.1 ≠ v := fun he => hv (he.symm.trans hpk)
          rw [if_pos hpk, alookup_cons, alookup_cons]
          simp only [if_neg hne, ih]
        · rw [if_neg hpk, alookup_cons, alookup_cons]
          by_cases hpv : p.1 = v
          · rw [if_pos hpv, if_pos hpv]
          · rw [if_neg hpv, if_neg hpv, ih]

theorem alookup_setParent_self (ps : List (V × Int)) (k : V) (w : Int) :
    alookup k (setParent ps k w) = some w := by
  unfold setParent
  by_cases hs : (alookup k ps).isSome
  · rw [if_pos hs]
    induction ps with
    | nil => simp [alookup] at hs
    | cons p rest ih =>
        by_cases h : p.1 = k
        · simp [alookup_cons, h]
        · rw [alookup_cons, if_neg h] at hs
          simpa [alookup_cons, h] using ih hs
  · rw [if_neg hs]
    rw [Option.not_isSome_iff_eq_none] at hs
    rw [alookup_append, hs]
    simp [alookup_cons]

theorem alookup_setParent_other (ps : List (V × Int)) (k u : V) (w : Int)
    (h : u ≠ k) : alookup u (setParent ps k w) = alookup u ps := by
  unfold setParent
  by_cases hs : (alookup k ps).isSome
  · rw [if_pos hs]
    clear hs
    induction ps with
    | nil => simp [alookup]
    | cons p rest ih =>
        rw [List.map_cons, alookup_cons, alookup_cons]
        by_cases hp : p.1 = k
        · have hpu : ¬(if p.1 = k then (k, w) else p).1 = u := by
            rw [if_pos hp]
            exact fun he => h he.symm
          have hpu' : ¬p.1 = u := fun he => h (he.symm.trans hp)
          rw [if_neg hpu, if_neg hpu', ih]
        · rw [if_neg hp]
          by_cases hu : p.1 = u
          · rw [if_pos hu, if_pos hu]
          · rw [if_neg hu, if_neg hu, ih]
  · rw [if_neg hs, alookup_append]
    rcases ho : alookup u ps with _ | b
    · have hku : ¬k = u := fun he => h he.symm
      simp [alookup_cons, alookup_nil, hku]
    · rfl

theorem keys_map_overwrite (ps : List (V × Int)) (k : V) (w : Int) :
    (ps.map (fun p => if p.1 = k then (k, w) else p)).map Prod.fst =
      ps.map Prod.fst := by
  induction ps with
  | nil => rfl
  | cons p rest ih =>
      by_cases h : p.1 = k
      · simp only [List.map_cons, if_pos h, ih]
        rw [h]
      · simp only [List.map_cons, if_neg h, ih]

theorem keys_setParent (ps : List (V × Int)) (k : V) (w : Int) :
    (setParent ps k w).map Prod.fst =
      if (alookup k ps).isSome then ps.map Prod.fst
      else ps.map Prod.fst ++ [k] := by
  unfold setParent
  by_cases hs : (alookup k ps).isSome
  · rw [if_pos hs, if_pos hs, keys_map_overwrite]
  · rw [if_neg hs, if_neg hs]
    simp

theorem nodeOf_add_or_get (g : Graph V) (v u : V) :
    nodeOf (add_or_get_node g v) u = nodeOf g u := by
  unfold add_or_get_node
  by_cases hs : (alookup v g.nodes).isSome
  · rw [if_pos hs]
  · rw [if_neg hs]
    unfold nodeOf
    simp only
    rw [alookup_append]
    rcases ho : alookup u g.nodes with _ | nd
    · rw [Option.not_isSome_iff_eq_none] at hs
      by_cases hu : v = u
      · subst hu
        simp [alookup_cons, alookup_nil, emptyNode]
      · simp [alookup_cons, alookup_nil, hu, emptyNode]
    · rfl

theorem mem_keys_add_or_get_self (g : Graph V) (v : V) :
    (alookup v (add_or_get_node g v).nodes).isSome = true := by
  unfold add_or_get_node
  by_cases hs : (alookup v g.nodes).isSome
  · rw [if_pos hs]
    exact hs
  · rw [if_neg hs]
    simp only
    rw [alookup_append]
    rw [Option.not_isSome_iff_eq_none] at hs
    rw [hs]
    simp [alookup_cons]

theorem keys_add_or_get (g : Graph V) (v : V) :
    keys (add_or_get_node g v) =
      if (alookup v g.nodes).isSome then keys g else keys g ++ [v] := by
  unfold add_or_get_node keys
  by_cases hs : (alookup v g.nodes).isSome <;> simp [hs]

theorem n_vertex_add_or_get (g : Graph V) (v : V) :
    (add_or_get_node g v).n_vertex =
      if (alookup v g.nodes).isSome then g.n_vertex else g.n_vertex + 1 := by
  unfold add_or_get_node
  by_cases hs : (alookup v g.nodes).isSome <;> simp [hs]

theorem isSome_alookup_add_or_get_mono (g : Graph V) (v u : V)
    (h : (alookup u g.nodes).isSome = true) :
    (alookup u (add_or_get_node g v).nodes).isSome = true := by
  unfold add_or_get_node
  by_cases hs : (alookup v g.nodes).isSome
  · rw [if_pos hs]
    exact h
  · rw [if_neg hs]
    simp only
    rw [alookup_append]
    rcases ho : alookup u g.nodes with _ | nd
    · rw [ho] at h
      simp at h
    · simp

theorem nodeOf_eq_of_alookup {g : Graph V} {v : V} {nd : Node V}
    (h : alookup v g.nodes = some nd) : nodeOf g v = nd := by
  unfold nodeOf
  rw [h]
  rfl

theorem edgesOf_addTriple (g : Graph V) (t : V × V × Int) (v : V) :
    edgesOf (addTriple g t) v =
      if t.1 = v then edgesOf g v ++ [(t.2.1, t.2.2)] else edgesOf g v := by
  have h2 : ∀ u, nodeOf (add_or_get_node (add_or_get_node g t.1) t.2.1) u = nodeOf g u :=
    fun u => (nodeOf_add_or_get _ _ _).trans (nodeOf_add_or_get _ _ _)
  have hsome1 : (alookup t.1 (add_or_get_node (add_or_get_node g t.1) t.2.1).nodes).isSome = true :=
    isSome_alookup_add_or_get_mono _ _ _ (mem_keys_add_or_get_self g t.1)
  have hsome2 : (alookup t.2.1 (add_or_get_node (add_or_get_node g t.1) t.2.1).nodes).isSome = true :=
    mem_keys_add_or_get_self _ t.2.1
  obtain ⟨nd1, hnd1⟩ := Option.isSome_iff_exists.mp hsome1
  obtain ⟨nd2, hnd2⟩ := Option.isSome_iff_exists.mp hsome2
  have hg1 : (alookup t.1 g.nodes).getD (emptyNode t.1) = nd1 :=
    (h2 t.1).symm.trans (nodeOf_eq_of_alookup hnd1)
  have hg2 : (alookup t.2.1 g.nodes).getD (emptyNode t.2.1) = nd2 :=
    (h2 t.2.1).symm.trans (nodeOf_eq_of_alookup hnd2)
  unfold addTriple edgesOf nodeOf
  simp only
  rw [alookup_updateNode]
  by_cases hv2 : v = t.2.1
  · rw [if_pos hv2, alookup_updateNode]
    by_cases hv1 : t.2.1 = t.1
    · rw [if_pos hv1, hnd1]
      have ht : t.1 = v := hv1.symm.trans hv2.symm
      rw [if_pos ht]
      simp only [Option.map_some', Option.getD_some]
      rw [← ht, hg1]
    · rw [if_neg hv1, hnd2]
      have ht : ¬t.1 = v := fun he => hv1 (hv2.symm.trans he.symm)
      rw [if_neg ht]
      simp only [Option.map_some', Option.getD_some]
      rw [hv2, hg2]
  · rw [if_neg hv2, alookup_updateNode]
    by_cases hv1 : v = t.1
    · rw [if_pos hv1, hnd1]
      have ht : t.1 = v := hv1.symm
      rw [if_pos ht]
      simp only [Option.map_some', Option.getD_some]
      rw [← ht, hg1]
    · have ht : ¬t.1 = v := fun he => hv1 he.symm
      rw [if_neg hv1, if_neg ht]
      have hx : (alookup v (add_or_get_node (add_or_get_node g t.1) t.2.1).nodes).getD
          (emptyNode v) = nodeOf g v := h2 v
      rw [hx]
      rfl

theorem parentsOf_addTriple (g : Graph V) (t : V × V × Int) (v : V) :
    parentsOf (addTriple g t) v =
      if t.2.1 = v then setParent (parentsOf g v) t.1 t.2.2
      else parentsOf g v := by
  have h2 : ∀ u, nodeOf (add_or_get_node (add_or_get_node g t.1) t.2.1) u = nodeOf g u :=
    fun u => (nodeOf_add_or_get _ _ _).trans (nodeOf_add_or_get _ _ _)
  have hsome1 : (alookup t.1 (add_or_get_node (add_or_get_node g t.1) t.2.1).nodes).isSome = true :=
    isSome_alookup_add_or_get_mono _ _ _ (mem_keys_add_or_get_self g t.1)
  have hsome2 : (alookup t.2.1 (add_or_get_node (add_or_get_node g t.1) t.2.1).nodes).isSome = true :=
    mem_keys_add_or_get_self _ t.2.1
  obtain ⟨nd1, hnd1⟩ := Option.isSome_iff_exists.mp hsome1
  obtain ⟨nd2, hnd2⟩ := Option.isSome_iff_exists.mp hsome2
  have hp1 : (alookup t.1 g.nodes).getD (emptyNode t.1) = nd1 :=
    (h2 t.1).symm.trans (nodeOf_eq_of_alookup hnd1)
  have hp2 : (alookup t.2.1 g.nodes).getD (emptyNode t.2.1) = nd2 :=
    (h2 t.2.1).symm.trans (nodeOf_eq_of_alookup hnd2)
  unfold addTriple parentsOf nodeOf
  simp only
  rw [alookup_updateNode]
  by_cases hv2 : v = t.2.1
  · rw [if_pos hv2, alookup_updateNode]
    have ht : t.2.1 = v := hv2.symm
    rw [if_pos ht]
    by_cases hv1 : t.2.1 = t.1
    · rw [if_pos hv1, hnd1]
      simp only [Option.map_some', Option.getD_some]
      have ht1 : t.1 = v := hv1.symm.trans hv2.symm
      rw [← ht1, hp1]
    · rw [if_neg hv1, hnd2]
      simp only [Option.map_some', Option.getD_some]
      rw [hv2, hp2]
  · have ht : ¬t.2.1 = v := fun he => hv2 he.symm
    rw [if_neg hv2, if_neg ht, alookup_updateNode]
    by_cases hv1 : v = t.1
    · rw [if_pos hv1, hnd1]
      simp only [Option.map_some', Option.getD_some]
      rw [hv1, hp1]
    · rw [if_neg hv1]
      have hx : (alookup v (add_or_get_node (add_or_get_node g t.1) t.2.1).nodes).getD
          (emptyNode v) = nodeOf g v := h2 v
      rw [hx]
      rfl

theorem optOr_none_right (a : Option Int) : optOr a none = a := by
  cases a <;> rfl

theorem edgesOf_foldl (input : List (V × V × Int)) :
    ∀ g v, edgesOf (input.foldl addTriple g) v = edgesOf g v ++ edgesFromInput input v := by
  induction input with
  | nil =>
      intro g v
      simp [edgesFromInput]
  | cons t rest ih =>
      intro g v
      rw [List.foldl_cons, ih, edgesOf_addTriple]
      unfold edgesFromInput
      rw [List.filter_cons]
      by_cases h : t.1 = v
      · simp [h, List.append_assoc]
      · simp [h]

theorem edgesOf_buildGraph (input : List (V × V × Int)) (v : V) :
    edgesOf (buildGraph input) v = edgesFromInput input v := by
  rw [buildGraph, edgesOf_foldl]
  simp [edgesOf, nodeOf, alookup, emptyNode]

theorem parents_alookup_foldl (input : List (V × V × Int)) :
    ∀ g u v, alookup u (parentsOf (input.foldl addTriple g) v) =
      optOr (lastWeight u v input) (alookup u (parentsOf g v)) := by
  induction input with
  | nil =>
      intro g u v
      rfl
  | cons t rest ih =>
      intro g u v
      rw [List.foldl_cons, ih]
      rcases hlw : lastWeight u v rest with _ | w
      · unfold optOr lastWeight
        rw [hlw, parentsOf_addTriple]
        simp only
        by_cases hv : t.2.1 = v
        · rw [if_pos hv]
          by_cases hu : t.1 = u
          · subst hu
            rw [alookup_setParent_self]
            simp [hv]
          · rw [alookup_setParent_other _ _ _ _ (fun he => hu he.symm)]
            simp [hu]
        · rw [if_neg hv]
          simp [hv]
      · unfold optOr lastWeight
        rw [hlw]

theorem parents_alookup_buildGraph (input : List (V × V × Int)) (u v : V) :
    alookup u (parentsOf (buildGraph input) v) = lastWeight u v input := by
  rw [buildGraph, parents_alookup_foldl]
  have : alookup u (parentsOf (⟨[], 0⟩ : Graph V) v) = none := rfl
  rw [this, optOr_none_right]

/-! ### Well-formedness of constructed graphs -/

theorem keys_addTriple (g : Graph V) (t : V × V × Int) :
    keys (addTriple g t) = keys (add_or_get_node (add_or_get_node g t.1) t.2.1) := by
  unfold addTriple keys
  simp only
  rw [keys_updateNode, keys_updateNode]

theorem mem_keys_addTriple (g : Graph V) (t : V × V × Int) (v : V)
    (h : v ∈ keys g) : v ∈ keys (addTriple g t) := by
  rw [keys_addTriple, keys_add_or_get, keys_add_or_get]
  by_cases h1 : (alookup t.1 g.nodes).isSome <;>
    by_cases h2 : (alookup t.2.1 (add_or_get_node g t.1).nodes).isSome <;>
    simp [h1, h2, h]

theorem mem_keys_addTriple_from (g : Graph V) (t : V × V × Int) :
    t.1 ∈ keys (addTriple g t) := by
  rw [keys_addTriple]
  have h := isSome_alookup_add_or_get_mono (add_or_get_node g t.1) t.2.1 t.1
    (mem_keys_add_or_get_self g t.1)
  rw [alookup_isSome_iff] at h
  exact h

theorem mem_keys_addTriple_to (g : Graph V) (t : V × V × Int) :
    t.2.1 ∈ keys (addTriple g t) := by
  rw [keys_addTriple]
  have h := mem_keys_add_or_get_self (add_or_get_node g t.1) t.2.1
  rw [alookup_isSome_iff] at h
  exact h

theorem GraphWF_add_or_get (g : Graph V) (v : V) (hwf : GraphWF g) :
    GraphWF (add_or_get_node g v) := by
  have hkeys := keys_add_or_get g v
  have hn := n_vertex_add_or_get g v
  by_cases hs : (alookup v g.nodes).isSome
  · rw [if_pos hs] at hkeys hn
    refine ⟨?_, ?_, ?_, ?_, ?_⟩
    · rw [hkeys]; exact hwf.keysNodup
    · rw [hkeys, hn]; exact hwf.countEq
    · intro p hp
      unfold add_or_get_node at hp
      rw [if_pos hs] at hp
      exact hwf.valueEq p hp
    · intro u e he
      rw [hkeys]
      unfold edgesOf at he
      rw [nodeOf_add_or_get] at he
      exact hwf.edgeClosed u e he
    · intro u
      unfold parentsOf
      rw [nodeOf_add_or_get]
      exact hwf.parentsNodup u
  · rw [if_neg hs] at hkeys hn
    have hvnot : v ∉ keys g := by
      unfold keys
      rw [← alookup_isSome_iff]
      simpa using hs
    refine ⟨?_, ?_, ?_, ?_, ?_⟩
    · rw [hkeys]
      apply List.Nodup.append hwf.keysNodup (List.nodup_singleton v)
      simp [List.disjoint_singleton]
      exact hvnot
    · rw [hkeys, hn, List.length_append, hwf.countEq]
      rfl
    · intro p hp
      unfold add_or_get_node at hp
      rw [if_neg hs] at hp
      simp only at hp
      rcases List.mem_append.mp hp with h | h
      · exact hwf.valueEq p h
      · rcases List.mem_singleton.mp h with rfl
        rfl
    · intro u e he
      rw [hkeys]
      unfold edgesOf at he
      rw [nodeOf_add_or_get] at he
      exact List.mem_append_left _ (hwf.edgeClosed u e he)
    · intro u
      unfold parentsOf
      rw [nodeOf_add_or_get]
      exact hwf.parentsNodup u

theorem valueEq_updateNode (ns : List (V × Node V)) (k : V) (f : Node V → Node V)
    (hf : ∀ nd, (f nd).value = nd.value)
    (h : ∀ p ∈ ns, p.2.value = p.1) :
    ∀ p ∈ updateNode ns k f, p.2.value = p.1 := by
  intro p hp
  unfold updateNode at hp
  rcases List.mem_map.mp hp with ⟨q, hq, hql⟩
  by_cases hk : q.1 = k
  · rw [if_pos hk] at hql
    rw [← hql]
    simp only
    rw [hf, h q hq]
  · rw [if_neg hk] at hql
    rw [← hql]
    exact h q hq

theorem GraphWF_addTriple (g : Graph V) (t : V × V × Int) (hwf : GraphWF g) :
    GraphWF (addTriple g t) := by
  have h2 : GraphWF (add_or_get_node (add_or_get_node g t.1) t.2.1) :=
    GraphWF_add_or_get _ _ (GraphWF_add_or_get _ _ hwf)
  refine ⟨?_, ?_, ?_, ?_, ?_⟩
  · rw [keys_addTriple]
    exact h2.keysNodup
  · rw [keys_addTriple]
    exact h2.countEq
  · intro p hp
    have hp' : p ∈ updateNode
        (updateNode (add_or_get_node (add_or_get_node g t.1) t.2.1).nodes t.1
          (fun nd => { nd with edges := nd.edges ++ [(t.2.1, t.2.2)] }))
        t.2.1
        (fun nd => { nd with parents := setParent nd.parents t.1 t.2.2 }) := hp
    exact valueEq_updateNode
      (updateNode (add_or_get_node (add_or_get_node g t.1) t.2.1).nodes t.1
        (fun nd => { nd with edges := nd.edges ++ [(t.2.1, t.2.2)] }))
      t.2.1
      (fun nd => { nd with parents := setParent nd.parents t.1 t.2.2 })
      (fun nd => rfl)
      (valueEq_updateNode (add_or_get_node (add_or_get_node g t.1) t.2.1).nodes t.1
        (fun nd => { nd with edges := nd.edges ++ [(t.2.1, t.2.2)] })
        (fun nd => rfl) h2.valueEq) p hp'
  · intro v e he
    rw [edgesOf_addTriple] at he
    by_cases h : t.1 = v
    · rw [if_pos h] at he
      rcases List.mem_append.mp he with hh | hh
      · exact mem_keys_addTriple g t _ (hwf.edgeClosed v e hh)
      · rcases List.mem_singleton.mp hh with rfl
        exact mem_keys_addTriple_to g t
    · rw [if_neg h] at he
      exact mem_keys_addTriple g t _ (hwf.edgeClosed v e he)
  · intro v
    rw [parentsOf_addTriple]
    by_cases h : t.2.1 = v
    · rw [if_pos h, keys_setParent]
      by_cases hs : (alookup t.1 (parentsOf g v)).isSome
      · rw [if_pos hs]
        exact hwf.parentsNodup v
      · rw [if_neg hs]
        have hnot : t.1 ∉ (parentsOf g v).map Prod.fst := by
          rw [← alookup_isSome_iff]
          simpa using hs
        apply List.Nodup.append (hwf.parentsNodup v) (List.nodup_singleton _)
        intro a ha hb
        rcases List.mem_singleton.mp hb with rfl
        exact hnot ha
    · rw [if_neg h]
      exact hwf.parentsNodup v

theorem GraphWF_empty : GraphWF (⟨[], 0⟩ : Graph V) := by
  refine ⟨List.nodup_nil, rfl, ?_, ?_, ?_⟩
  · intro p hp
    simp at hp
  · intro v e he
    simp [edgesOf, nodeOf, alookup, emptyNode] at he
  · intro v
    simp [parentsOf, nodeOf, alookup, emptyNode]

theorem GraphWF_foldl (input : List (V × V × Int)) :
    ∀ g : Graph V, GraphWF g → GraphWF (input.foldl addTriple g) := by
  induction input with
  | nil => exact fun g h => h
  | cons t rest ih =>
      intro g h
      exact ih _ (GraphWF_addTriple g t h)

theorem GraphWF_buildGraph (input : List (V × V × Int)) :
    GraphWF (buildGraph input) :=
  GraphWF_foldl input _ GraphWF_empty

theorem keys_foldl_mono (input : List (V × V × Int)) :
    ∀ g : Graph V, ∀ v, v ∈ keys g → v ∈ keys (input.foldl addTriple g) := by
  induction input with
  | nil => exact fun g v h => h
  | cons t rest ih =>
      intro g v h
      exact ih _ v (mem_keys_addTriple g t v h)

theorem mem_keys_foldl_of_mem (input : List (V × V × Int)) :
    ∀ (g : Graph V) (tr : V × V × Int), tr ∈ input →
      tr.1 ∈ keys (input.foldl addTriple g) ∧
      tr.2.1 ∈ keys (input.foldl addTriple g) := by
  induction input with
  | nil =>
      intro g tr h
      simp at h
  | cons t rest ih =>
      intro g tr h
      rw [List.foldl_cons]
      rcases List.mem_cons.mp h with rfl | hmem
      · exact ⟨keys_foldl_mono rest _ _ (mem_keys_addTriple_from _ _),
               keys_foldl_mono rest _ _ (mem_keys_addTriple_to _ _)⟩
      · exact ih _ tr hmem

theorem mem_keys_buildGraph_of_mem (input : List (V × V × Int)) (tr : V × V × Int)
    (h : tr ∈ input) :
    tr.1 ∈ keys (buildGraph input) ∧ tr.2.1 ∈ keys (buildGraph input) :=
  mem_keys_foldl_of_mem input _ tr h

theorem mem_edgesFromInput (input : List (V × V × Int)) (v x : V) (w : Int) :
    (x, w) ∈ edgesFromInput input v ↔ (v, x, w) ∈ input := by
  unfold edgesFromInput
  rw [List.mem_map]
  constructor
  · rintro ⟨tr, htr, he⟩
    rw [List.mem_filter] at htr
    rcases tr with ⟨a, b, c⟩
    have h1 : a = v := by simpa using htr.2
    rcases Prod.mk.injEq .. ▸ he with ⟨hb, hc⟩
    subst h1
    rw [← hb, ← hc]
    exact htr.1
  · intro h
    exact ⟨(v, x, w), List.mem_filter.mpr ⟨h, by simp⟩, rfl⟩

theorem lastWeight_isSome_iff (input : List (V × V × Int)) (u v : V) :
    (lastWeight u v input).isSome = true ↔ ∃ w, (u, v, w) ∈ input := by
  induction input with
  | nil => simp [lastWeight]
  | cons t rest ih =>
      unfold lastWeight
      rcases h : lastWeight u v rest with _ | w
      · rw [h] at ih
        simp only [Option.isSome_none, Bool.false_eq_true, false_iff, not_exists] at ih
        by_cases hc : t.1 = u ∧ t.2.1 = v
        · rw [if_pos hc]
          simp only [Option.isSome_some, true_iff]
          rcases t with ⟨a, b, c⟩
          rcases hc with ⟨h1, h2⟩
          simp only at h1 h2
          subst h1
          subst h2
          exact ⟨c, List.mem_cons_self _ _⟩
        · rw [if_neg hc]
          simp only [Option.isSome_none, Bool.false_eq_true, false_iff, not_exists]
          intro w hw
          rcases List.mem_cons.mp hw with he | he
          · rcases t with ⟨a, b, c⟩
            rcases Prod.mk.injEq .. ▸ he.symm with ⟨h1, h23⟩
            rcases Prod.mk.injEq .. ▸ h23 with ⟨h2, h3⟩
            exact hc ⟨h1, h2⟩
          · exact ih w he
      · rw [h] at ih
        simp only [Option.isSome_some, true_iff] at ih ⊢
        rcases ih with ⟨w', hw'⟩
        exact ⟨w', List.mem_cons_of_mem _ hw'⟩

/-! ### Nearest-neighbour selection and the heuristic loop -/

theorem minFold_mem (rest : List (V × Int)) :
    ∀ a : V × Int,
      rest.foldl (fun best x => if x.2 < best.2 then x else best) a ∈ a :: rest := by
  induction rest with
  | nil =>
      intro a
      exact List.mem_singleton.mpr rfl
  | cons x rest ih =>
      intro a
      rw [List.foldl_cons]
      by_cases h : x.2 < a.2
      · rw [if_pos h]
        rcases List.mem_cons.mp (ih x) with he | hm
        · rw [he]
          exact List.mem_cons_of_mem _ (List.mem_cons_self _ _)
        · exact List.mem_cons_of_mem _ (List.mem_cons_of_mem _ hm)
      · rw [if_neg h]
        rcases List.mem_cons.mp (ih a) with he | hm
        · rw [he]
          exact List.mem_cons_self _ _
        · exact List.mem_cons_of_mem _ (List.mem_cons_of_mem _ hm)

theorem minEdge?_mem {l : List (V × Int)} {e : V × Int}
    (h : minEdge? l = some e) : e ∈ l := by
  cases l with
  | nil => simp [minEdge?] at h
  | cons a rest =>
      unfold minEdge? at h
      rcases Option.some.inj h with rfl
      exact minFold_mem rest a

theorem nearest_ok_mem {g : Graph V} {v x : V} {p : Finset V}
    (h : nearest_not_passed_node g v p = .ok x) :
    ∃ w, (x, w) ∈ edgesOf g v ∧ x ∉ p := by
  unfold nearest_not_passed_node at h
  rcases hm : minEdge? ((edgesOf g v).filter (fun e => decide (e.1 ∉ p))) with _ | e
  · rw [hm] at h
    simp at h
  · rw [hm] at h
    rcases Except.ok.inj h with rfl
    have hmem := minEdge?_mem hm
    rw [List.mem_filter] at hmem
    exact ⟨e.2, by simpa using hmem.1, by simpa using hmem.2⟩

theorem nearest_error_of_empty {g : Graph V} {v : V} {p : Finset V}
    (h : (edgesOf g v).filter (fun e => decide (e.1 ∉ p)) = []) :
    nearest_not_passed_node g v p = .error .noUnvisitedNeighbor := by
  unfold nearest_not_passed_node
  rw [h]
  rfl

theorem hamLoop_exit (g : Graph V) (fuel : Nat) (cur : V) (passed : Finset V)
    (route : List V) (total : Int) (h : passed.card = g.n_vertex) :
    hamLoop g fuel cur passed route total = .ok (route, total, cur) := by
  unfold hamLoop
  rw [if_pos h]

theorem hamLoop_zero (g : Graph V) (cur : V) (passed : Finset V)
    (route : List V) (total : Int) (h : ¬passed.card = g.n_vertex) :
    hamLoop g 0 cur passed route total = .error .outOfFuel := by
  unfold hamLoop
  rw [if_neg h]

theorem hamLoop_succ (g : Graph V) (fuel : Nat) (cur : V) (passed : Finset V)
    (route : List V) (total : Int) (h : ¬passed.card = g.n_vertex) :
    hamLoop g (fuel + 1) cur passed route total = (do
      let nearest ← nearest_not_passed_node g cur passed
      let w ← weight_between_nodes g nearest cur
      hamLoop g fuel nearest (insert nearest passed) (route ++ [nearest]) (total + w)) := by
  conv =>
    lhs
    unfold hamLoop
  rw [if_neg h]

theorem chainWeight_cons_cons (g : Graph V) (a b : V) (l : List V) :
    chainWeight g (a :: b :: l) =
      match weight_between_nodes g b a, chainWeight g (b :: l) with
      | .ok w, .ok s => .ok (w + s)
      | .error e, _ => .error e
      | .ok _, .error e => .error e := rfl

theorem chainWeight_append_last (g : Graph V) (l : List V) (c x : V) (s : Int)
    (hc : l.getLast? = some c) (hs : chainWeight g l = .ok s) :
    chainWeight g (l ++ [x]) =
      match weight_between_nodes g x c with
      | .ok w => .ok (s + w)
      | .error e => .error e := by
  induction l generalizing s with
  | nil => simp at hc
  | cons a l ih =>
      cases l with
      | nil =>
          rw [List.getLast?_singleton] at hc
          have hac : a = c := Option.some.inj hc
          subst hac
          have hs0 : s = 0 := by
            have : chainWeight g [a] = Except.ok 0 := rfl
            rw [this] at hs
            exact (Except.ok.inj hs).symm
          subst hs0
          show chainWeight g [a, x] = _
          rw [chainWeight_cons_cons]
          have hx : chainWeight g [x] = Except.ok 0 := rfl
          rw [hx]
          rcases hw : weight_between_nodes g x a with e | w
          · rfl
          · show Except.ok (w + 0) = Except.ok (0 + w)
            rw [Int.add_zero, Int.zero_add]
      | cons b l =>
          have hc' : (b :: l).getLast? = some c := by
            rw [← hc]
            rfl
          rw [chainWeight_cons_cons] at hs
          rcases h1 : weight_between_nodes g b a with e | w1
          · rw [h1] at hs
            simp at hs
          · rw [h1] at hs
            rcases h2 : chainWeight g (b :: l) with e | s1
            · rw [h2] at hs
              simp at hs
            · rw [h2] at hs
              have hsum : w1 + s1 = s := Except.ok.inj hs
              have hl : (a :: b :: l) ++ [x] = a :: b :: (l ++ [x]) := rfl
              rw [hl, chainWeight_cons_cons, h1]
              have hbl : (b :: l) ++ [x] = b :: (l ++ [x]) := rfl
              rw [← hbl, ih s1 hc' h2]
              rcases h3 : weight_between_nodes g x c with e | w
              · rfl
              · show Except.ok (w1 + (s1 + w)) = Except.ok (s + w)
                rw [← hsum, Int.add_assoc]

theorem ebind_ok {α γ : Type} (a : α) (f : α → Except Err γ) :
    (Except.ok a >>= f) = f a := rfl

theorem ebind_error {α γ : Type} (e : Err) (f : α → Except Err γ) :
    ((Except.error e : Except Err α) >>= f) = .error e := rfl

theorem head?_append_left {l : List V} (x : V) (h : l ≠ []) :
    (l ++ [x]).head? = l.head? := by
  cases l with
  | nil => exact absurd rfl h
  | cons a t => rfl

theorem hamLoop_spec (g : Graph V) :
    ∀ (fuel : Nat) (cur : V) (passed : Finset V) (route : List V) (total : Int)
      (r : List V) (tot : Int) (c : V),
      hamLoop g fuel cur passed route total = .ok (r, tot, c) →
      route.getLast? = some cur →
      chainWeight g route = .ok total →
      route.length = passed.card →
      r.getLast? = some c ∧ chainWeight g r = .ok tot ∧
        r.length = g.n_vertex ∧ r.head? = route.head? := by
  intro fuel
  induction fuel with
  | zero =>
      intro cur passed route total r tot c hrun hlast hchain hlen
      by_cases hcard : passed.card = g.n_vertex
      · rw [hamLoop_exit g 0 cur passed route total hcard] at hrun
        have h := Except.ok.inj hrun
        rw [Prod.ext_iff] at h
        obtain ⟨hr, h2⟩ := h
        rw [Prod.ext_iff] at h2
        obtain ⟨ht, hc2⟩ := h2
        subst hr
        subst ht
        subst hc2
        exact ⟨hlast, hchain, by rw [hlen, hcard], rfl⟩
      · rw [hamLoop_zero g cur passed route total hcard] at hrun
        exact absurd hrun (by simp)
  | succ fuel ih =>
      intro cur passed route total r tot c hrun hlast hchain hlen
      by_cases hcard : passed.card = g.n_vertex
      · rw [hamLoop_exit g (fuel + 1) cur passed route total hcard] at hrun
        have h := Except.ok.inj hrun
        rw [Prod.ext_iff] at h
        obtain ⟨hr, h2⟩ := h
        rw [Prod.ext_iff] at h2
        obtain ⟨ht, hc2⟩ := h2
        subst hr
        subst ht
        subst hc2
        exact ⟨hlast, hchain, by rw [hlen, hcard], rfl⟩
      · rw [hamLoop_succ g fuel cur passed route total hcard] at hrun
        rcases hn : nearest_not_passed_node g cur passed with e | nxt
        · rw [hn, ebind_error] at hrun
          exact absurd hrun (by simp)
        · rw [hn, ebind_ok] at hrun
          rcases hw : weight_between_nodes g nxt cur with e | w
          · rw [hw, ebind_error] at hrun
            exact absurd hrun (by simp)
          · rw [hw, ebind_ok] at hrun
            obtain ⟨wmin, hwmem, hnot⟩ := nearest_ok_mem hn
            have hne : route ≠ [] := by
              intro hnil
              rw [hnil] at hlast
              simp at hlast
            have hlast' : (route ++ [nxt]).getLast? = some nxt :=
              List.getLast?_concat route
            have hchain' : chainWeight g (route ++ [nxt]) = .ok (total + w) := by
              have hcw := chainWeight_append_last g route cur nxt total hlast hchain
              rw [hw] at hcw
              exact hcw
            have hlen' : (route ++ [nxt]).length = (insert nxt passed).card := by
              rw [List.length_append, hlen, Finset.card_insert_of_not_mem hnot]
              rfl
            obtain ⟨ha, hb, hc3, hd⟩ :=
              ih nxt (insert nxt passed) (route ++ [nxt]) (total + w) r tot c
                hrun hlast' hchain' hlen'
            refine ⟨ha, hb, hc3, ?_⟩
            rw [hd, head?_append_left nxt hne]

theorem find_noGuarantee (g : Graph V) (start : V) (h : ore_theorem g = false) :
    find_hamiltonian_cycle g start = .ok .noGuarantee := by
  unfold find_hamiltonian_cycle
  rw [if_pos h]

theorem find_run (g : Graph V) (start : V) (h : ¬ore_theorem g = false) :
    find_hamiltonian_cycle g start = (do
      let r ← hamLoop g g.n_vertex start {start} [start] 0
      let w ← weight_between_nodes g start r.2.2
      Except.ok (.found (r.1 ++ [start]) (r.2.1 + w))) := by
  unfold find_hamiltonian_cycle
  rw [if_neg h]

theorem count_edgesFromInput (input : List (V × V × Int)) (f t : V) (w : Int) :
    (edgesFromInput input f).count (t, w) = input.count (f, t, w) := by
  induction input with
  | nil => rfl
  | cons tr rest ih =>
      unfold edgesFromInput at ih ⊢
      rw [List.filter_cons]
      rcases tr with ⟨a, b, c⟩
      by_cases h : a = f
      · rw [if_pos (by simpa using h)]
        subst h
        rw [List.map_cons, List.count_cons, List.count_cons, ih]
        congr 1
        simp [Prod.ext_iff]
      · rw [if_neg (by simpa using h), ih, List.count_cons]
        have hne : ¬((a, b, c) = (f, t, w)) := fun he => h (congrArg Prod.fst he)
        simp [hne]

theorem mem_edgesOf_buildGraph (input : List (V × V × Int)) (u x : V) (w : Int) :
    (x, w) ∈ edgesOf (buildGraph input) u ↔ (u, x, w) ∈ input := by
  rw [edgesOf_buildGraph]
  exact mem_edgesFromInput input u x w

theorem ore_false_iff (g : Graph V) (hwf : GraphWF g) :
    ore_theorem g = false ↔
      (g.n_vertex < 3 ∨
        ∃ u, u ∈ keys g ∧ ∃ v, v ∈ keys g ∧ u ≠ v ∧
          alookup v (parentsOf g u) = none ∧ alookup u (parentsOf g v) = none ∧
          (edgesOf g u).length + (edgesOf g v).length < g.n_vertex) := by
  unfold ore_theorem
  by_cases hn : g.n_vertex < 3
  · simp [hn]
  · rw [if_neg hn]
    have hbn : ∀ b : Bool, ((!b) = false ↔ b = true) := by decide
    rw [hbn]
    constructor
    · intro hany
      rw [List.any_eq_true] at hany
      obtain ⟨p1, hp1, hany2⟩ := hany
      rw [List.any_eq_true] at hany2
      obtain ⟨p2, hp2, hb⟩ := hany2
      simp only [Bool.and_eq_true, decide_eq_true_eq,
        Option.isNone_iff_eq_none] at hb
      obtain ⟨⟨⟨hne, hA⟩, hB⟩, hlen⟩ := hb
      have hv1 : p1.2.value = p1.1 := hwf.valueEq p1 hp1
      have hv2 : p2.2.value = p2.1 := hwf.valueEq p2 hp2
      have hnd1 : alookup p1.1 g.nodes = some p1.2 :=
        alookup_of_mem_nodup (by rw [Prod.mk.eta]; exact hp1) hwf.keysNodup
      have hnd2 : alookup p2.1 g.nodes = some p2.2 :=
        alookup_of_mem_nodup (by rw [Prod.mk.eta]; exact hp2) hwf.keysNodup
      have he1 : edgesOf g p1.1 = p1.2.edges := by
        unfold edgesOf
        rw [nodeOf_eq_of_alookup hnd1]
      have he2 : edgesOf g p2.1 = p2.2.edges := by
        unfold edgesOf
        rw [nodeOf_eq_of_alookup hnd2]
      have hq1 : parentsOf g p1.1 = p1.2.parents := by
        unfold parentsOf
        rw [nodeOf_eq_of_alookup hnd1]
      have hq2 : parentsOf g p2.1 = p2.2.parents := by
        unfold parentsOf
        rw [nodeOf_eq_of_alookup hnd2]
      refine Or.inr ⟨p1.1, List.mem_map.mpr ⟨p1, hp1, rfl⟩,
        p2.1, List.mem_map.mpr ⟨p2, hp2, rfl⟩, ?_, ?_, ?_, ?_⟩
      · rw [hv1, hv2] at hne
        exact hne
      · rw [hq1]
        rw [hv2] at hA
        exact hA
      · rw [hq2]
        rw [hv1] at hB
        exact hB
      · rw [he1, he2]
        exact hlen
    · rintro (h3 | ⟨u, hu, v, hv, hne, hA, hB, hlen⟩)
      · exact absurd h3 hn
      · have hu' : (alookup u g.nodes).isSome = true := by
          rw [alookup_isSome_iff]
          exact hu
        have hv' : (alookup v g.nodes).isSome = true := by
          rw [alookup_isSome_iff]
          exact hv
        obtain ⟨nd1, hnd1⟩ := Option.isSome_iff_exists.mp hu'
        obtain ⟨nd2, hnd2⟩ := Option.isSome_iff_exists.mp hv'
        have hval1 : nd1.value = u := hwf.valueEq (u, nd1) (alookup_mem hnd1)
        have hval2 : nd2.value = v := hwf.valueEq (v, nd2) (alookup_mem hnd2)
        have he1 : edgesOf g u = nd1.edges := by
          unfold edgesOf
          rw [nodeOf_eq_of_alookup hnd1]
        have he2 : edgesOf g v = nd2.edges := by
          unfold edgesOf
          rw [nodeOf_eq_of_alookup hnd2]
        have hq1 : parentsOf g u = nd1.parents := by
          unfold parentsOf
          rw [nodeOf_eq_of_alookup hnd1]
        have hq2 : parentsOf g v = nd2.parents := by
          unfold parentsOf
          rw [nodeOf_eq_of_alookup hnd2]
        rw [List.any_eq_true]
        refine ⟨(u, nd1), alookup_mem hnd1, ?_⟩
        rw [List.any_eq_true]
        refine ⟨(v, nd2), alookup_mem hnd2, ?_⟩
        simp only [Bool.and_eq_true, decide_eq_true_eq,
          Option.isNone_iff_eq_none]
        refine ⟨⟨⟨?_, ?_⟩, ?_⟩, ?_⟩
        · show nd1.value ≠ nd2.value
          rw [hval1, hval2]
          exact hne
        · show alookup nd2.value nd1.parents = none
          rw [hval2, ← hq1]
          exact hA
        · show alookup nd1.value nd2.parents = none
          rw [hval1, ← hq2]
          exact hB
        · show nd1.edges.length + nd2.edges.length < g.n_vertex
          rw [← he1, ← he2]
          exact hlen

theorem not_adjacent_iff_parents_none (input : List (V × V × Int)) (u v : V) :
    (alookup v (parentsOf (buildGraph input) u) = none ∧
      alookup u (parentsOf (buildGraph input) v) = none) ↔
      ¬adjacentByEdges (buildGraph input) u v := by
  constructor
  · rintro ⟨hA, hB⟩ hadj
    rcases hadj with ⟨w, hw⟩ | ⟨w, hw⟩
    · have hm := (mem_edgesOf_buildGraph input u v w).mp hw
      have hs : (alookup u (parentsOf (buildGraph input) v)).isSome = true := by
        rw [parents_alookup_buildGraph, lastWeight_isSome_iff]
        exact ⟨w, hm⟩
      rw [hB] at hs
      simp at hs
    · have hm := (mem_edgesOf_buildGraph input v u w).mp hw
      have hs : (alookup v (parentsOf (buildGraph input) u)).isSome = true := by
        rw [parents_alookup_buildGraph, lastWeight_isSome_iff]
        exact ⟨w, hm⟩
      rw [hA] at hs
      simp at hs
  · intro hnadj
    constructor
    · rcases ho : alookup v (parentsOf (buildGraph input) u) with _ | w0
      · rfl
      · exfalso
        have hs : (alookup v (parentsOf (buildGraph input) u)).isSome = true := by
          rw [ho]
          rfl
        rw [parents_alookup_buildGraph, lastWeight_isSome_iff] at hs
        obtain ⟨w, hw⟩ := hs
        exact hnadj (Or.inr ⟨w, (mem_edgesOf_buildGraph input v u w).mpr hw⟩)
    · rcases ho : alookup u (parentsOf (buildGraph input) v) with _ | w0
      · rfl
      · exfalso
        have hs : (alookup u (parentsOf (buildGraph input) v)).isSome = true := by
          rw [ho]
          rfl
        rw [parents_alookup_buildGraph, lastWeight_isSome_iff] at hs
        obtain ⟨w, hw⟩ := hs
        exact hnadj (Or.inl ⟨w, (mem_edgesOf_buildGraph input u v w).mpr hw⟩)

/-! ### Claim theorems settled so far -/

/-- C3: the sufficiency check returns `false` exactly when
`vertexCount < 3` or some pair of distinct node values is non-adjacent
(no edge between them in either direction) with edge-set sizes summing
to less than `vertexCount`; otherwise it returns `true`. -/
theorem C3_ore_characterization (input : List (V × V × Int)) :
    ore_theorem (buildGraph input) = false ↔
      ((buildGraph input).n_vertex < 3 ∨
        ∃ u, u ∈ keys (buildGraph input) ∧ ∃ v, v ∈ keys (buildGraph input) ∧
          u ≠ v ∧ ¬adjacentByEdges (buildGraph input) u v ∧
          (edgesOf (buildGraph input) u).length +
            (edgesOf (buildGraph input) v).length <
            (buildGraph input).n_vertex) := by
  rw [ore_false_iff _ (GraphWF_buildGraph input)]
  constructor
  · rintro (h | ⟨u, hu, v, hv, hne, hA, hB, hlen⟩)
    · exact Or.inl h
    · exact Or.inr ⟨u, hu, v, hv, hne,
        (not_adjacent_iff_parents_none input u v).mp ⟨hA, hB⟩, hlen⟩
  · rintro (h | ⟨u, hu, v, hv, hne, hnadj, hlen⟩)
    · exact Or.inl h
    · obtain ⟨hA, hB⟩ := (not_adjacent_iff_parents_none input u v).mpr hnadj
      exact Or.inr ⟨u, hu, v, hv, hne, hA, hB, hlen⟩

/-- C1, counterexample: with the single input triple `(0, 1, 5)` an
edge from 0 to 1 with weight 5 is recorded in 0's edge set, but 1's
edge set stays empty — construction does not insert the symmetric
`to → from` edge the claim asserts. -/
theorem C1_counterexample :
    (1, 5) ∈ edgesOf oneEdgeGraph 0 ∧ edgesOf oneEdgeGraph 1 = [] := by
  decide

/-- C1 (amended): for every input triple `(from, to, weight)` the
constructor inserts the edge `(to, weight)` into `from`'s edge set and
records a `parents` entry for `from` on `to`; the symmetric edge in
`to`'s edge set is NOT created (it exists only when the input also
contains the reversed triple). -/
theorem C1_construction_effect (input : List (V × V × Int)) (f t : V) (w : Int)
    (h : (f, t, w) ∈ input) :
    (t, w) ∈ edgesOf (buildGraph input) f ∧
    (alookup f (parentsOf (buildGraph input) t)).isSome = true := by
  constructor
  · rw [edgesOf_buildGraph]
    exact (mem_edgesFromInput input f t w).mpr h
  · rw [parents_alookup_buildGraph, lastWeight_isSome_iff]
    exact ⟨w, h⟩

/-- Witness for `C1_construction_effect` at the input `[(0, 1, 5)]`. -/
theorem C1_witness :
    ((0 : Nat), 1, (5 : Int)) ∈ [((0 : Nat), 1, (5 : Int))] ∧
    ((1, (5 : Int)) ∈ edgesOf (buildGraph [((0 : Nat), 1, 5)]) 0 ∧
      (alookup 0 (parentsOf (buildGraph [((0 : Nat), 1, 5)]) 1)).isSome = true) :=
  ⟨by decide, C1_construction_effect [(0, 1, 5)] 0 1 5 (by decide)⟩

/-- C2, counterexample: on `stuckGraph` the sufficiency check returns
`true`, yet `find_hamiltonian_cycle` started at vertex 2 raises the
no-unvisited-neighbour error instead of returning a route of
`vertexCount + 1` entries. -/
theorem C2_counterexample :
    ore_theorem stuckGraph = true ∧
    find_hamiltonian_cycle stuckGraph 2 = .error .noUnvisitedNeighbor := by
  decide

/-- C2 (amended): whenever `find_hamiltonian_cycle` completes without
raising an error (which, contrary to the claim, is not guaranteed by a
passing sufficiency check — see the counterexample), the returned route
has exactly `vertexCount + 1` entries, starts and ends with the start
node, and the returned total weight is the sum of the looked-up weights
of the consecutive route edges. -/
theorem C2_route_shape (input : List (V × V × Int)) (start : V)
    (route : List V) (total : Int)
    (h : find_hamiltonian_cycle (buildGraph input) start = .ok (.found route total)) :
    route.length = (buildGraph input).n_vertex + 1 ∧
    route.head? = some start ∧ route.getLast? = some start ∧
    chainWeight (buildGraph input) route = .ok total := by
  set g := buildGraph input with hg
  by_cases hore : ore_theorem g = false
  · rw [find_noGuarantee g start hore] at h
    exact absurd (Except.ok.inj h) (by simp)
  · rw [find_run g start hore] at h
    rcases hrun : hamLoop g g.n_vertex start {start} [start] 0 with e | r3
    · rw [hrun, ebind_error] at h
      exact absurd h (by simp)
    · rw [hrun, ebind_ok] at h
      rcases hw : weight_between_nodes g start r3.2.2 with e | w
      · rw [hw, ebind_error] at h
        exact absurd h (by simp)
      · rw [hw, ebind_ok] at h
        have h2 := Except.ok.inj h
        obtain ⟨r, tot, c⟩ := r3
        simp only at hw hrun h2
        have hrr : r ++ [start] = route ∧ tot + w = total := by
          cases h2
          exact ⟨rfl, rfl⟩
        obtain ⟨hr, ht⟩ := hrr
        have hinit1 : ([start] : List V).getLast? = some start := rfl
        have hinit2 : chainWeight g [start] = .ok 0 := rfl
        have hinit3 : ([start] : List V).length = ({start} : Finset V).card := by
          simp
        obtain ⟨ha, hb, hc3, hd⟩ :=
          hamLoop_spec g g.n_vertex start {start} [start] 0 r tot c
            hrun hinit1 hinit2 hinit3
        have hrne : r ≠ [] := by
          intro hnil
          rw [hnil] at ha
          simp at ha
        subst hr
        subst ht
        refine ⟨?_, ?_, ?_, ?_⟩
        · rw [List.length_append, hc3]
          rfl
        · rw [head?_append_left start hrne, hd]
          rfl
        · exact List.getLast?_concat r
        · have hcw := chainWeight_append_last g r c start tot ha hb
          rw [hw] at hcw
          exact hcw

/-- Witness for `C2_route_shape` at the module's example graph started
at D. -/
theorem C2_witness :
    find_hamiltonian_cycle exampleGraph 'D' =
      .ok (.found ['D', 'C', 'A', 'B', 'D'] 24) ∧
    ((['D', 'C', 'A', 'B', 'D'] : List Char).length = exampleGraph.n_vertex + 1 ∧
      (['D', 'C', 'A', 'B', 'D'] : List Char).head? = some 'D' ∧
      (['D', 'C', 'A', 'B', 'D'] : List Char).getLast? = some 'D' ∧
      chainWeight exampleGraph ['D', 'C', 'A', 'B', 'D'] = .ok 24) :=
  ⟨by decide,
    C2_route_shape
      [('A', 'B', 5), ('B', 'A', 5), ('A', 'C', 6), ('C', 'A', 6),
       ('A', 'D', 8), ('D', 'A', 8), ('B', 'C', 7), ('C', 'B', 7),
       ('B', 'D', 10), ('D', 'B', 10), ('C', 'D', 3), ('D', 'C', 3)]
      'D' ['D', 'C', 'A', 'B', 'D'] 24 (by decide)⟩

/-- C4 (code bug, evaluated at the failing input): with the single
triple `(0, 1, 5)` the two values are connected by a recorded edge, yet
the weight lookup ordered `(0, 1)` raises `KeyError` (the code indexes
`node.parents[node]` instead of `adjacent_node.parents[node]`) instead
of returning 5; the reverse order returns the weight. -/
theorem C4_lookup_keyerror :
    (1, 5) ∈ edgesOf oneEdgeGraph 0 ∧
    weight_between_nodes oneEdgeGraph 0 1 = .error .keyError ∧
    weight_between_nodes oneEdgeGraph 1 0 = .ok 5 := by
  decide

/-- C5: whenever the sufficiency check fails, `find_hamiltonian_cycle`
returns the "no guarantee" outcome (the bare `return 0` of the Python
code, with no route printed) without searching, for every start node. -/
theorem C5_no_guarantee (input : List (V × V × Int)) (start : V)
    (h : ore_theorem (buildGraph input) = false) :
    find_hamiltonian_cycle (buildGraph input) start = .ok .noGuarantee :=
  find_noGuarantee _ _ h

/-- Witness for `C5_no_guarantee` on the empty input. -/
theorem C5_witness :
    ore_theorem (buildGraph ([] : List (Nat × Nat × Int))) = false ∧
    find_hamiltonian_cycle (buildGraph ([] : List (Nat × Nat × Int))) 0 =
      .ok .noGuarantee :=
  ⟨by decide, C5_no_guarantee [] 0 (by decide)⟩

/-- C7: on the module's example graph (complete graph on A, B, C, D)
the sufficiency check succeeds and the heuristic started at D prints
the route D, C, A, B, D and returns total weight 24. -/
theorem C7_concrete_scenario :
    ore_theorem exampleGraph = true ∧
    find_hamiltonian_cycle exampleGraph 'D' =
      .ok (.found ['D', 'C', 'A', 'B', 'D'] 24) := by
  decide

/-- C9: if at any step of the construction loop the current node has no
unvisited neighbour while the visited count still differs from
`vertexCount`, the loop terminates at once with the
no-unvisited-neighbour error (the `ValueError` raised by `min` on an
empty sequence). -/
theorem C9_dead_end_error (g : Graph V) (fuel : Nat) (cur : V) (passed : Finset V)
    (route : List V) (total : Int)
    (hfuel : fuel ≠ 0)
    (hempty : (edgesOf g cur).filter (fun e => decide (e.1 ∉ passed)) = [])
    (hrem : passed.card ≠ g.n_vertex) :
    hamLoop g fuel cur passed route total = .error .noUnvisitedNeighbor := by
  obtain ⟨k, rfl⟩ := Nat.exists_eq_succ_of_ne_zero hfuel
  rw [hamLoop_succ g k cur passed route total hrem,
      nearest_error_of_empty hempty, ebind_error]

/-- Witness for `C9_dead_end_error` on `stuckGraph` at current node 2. -/
theorem C9_witness :
    ((3 : Nat) ≠ 0 ∧
      (edgesOf stuckGraph 2).filter (fun e => decide (e.1 ∉ ({2} : Finset Nat))) = [] ∧
      ({2} : Finset Nat).card ≠ stuckGraph.n_vertex) ∧
    hamLoop stuckGraph 3 2 {2} [2] 0 = .error .noUnvisitedNeighbor :=
  ⟨⟨by decide, by decide, by decide⟩,
    C9_dead_end_error stuckGraph 3 2 {2} [2] 0 (by decide) (by decide) (by decide)⟩

/-- C10: a duplicated input triple contributes one edge-set entry per
occurrence to the from-node (so the degree used by the sufficiency
check counts duplicates), while the to-node's parents dict keeps a
single entry for that from-node whose stored weight is the one of the
most recent matching triple. -/
theorem C10_duplicate_triples (input : List (V × V × Int)) (f t : V) (w : Int)
    (h : 2 ≤ input.count (f, t, w)) :
    2 ≤ (edgesOf (buildGraph input) f).count (t, w) ∧
    ((parentsOf (buildGraph input) t).map Prod.fst).count f = 1 ∧
    alookup f (parentsOf (buildGraph input) t) = lastWeight f t input := by
  refine ⟨?_, ?_, parents_alookup_buildGraph input f t⟩
  · rw [edgesOf_buildGraph, count_edgesFromInput]
    exact h
  · have hmem : (f, t, w) ∈ input := by
      rw [← List.count_pos_iff]
      omega
    have hsome : (alookup f (parentsOf (buildGraph input) t)).isSome = true := by
      rw [parents_alookup_buildGraph, lastWeight_isSome_iff]
      exact ⟨w, hmem⟩
    have hin : f ∈ (parentsOf (buildGraph input) t).map Prod.fst :=
      (alookup_isSome_iff _ _).mp hsome
    exact List.count_eq_one_of_mem ((GraphWF_buildGraph input).parentsNodup t) hin

/-- Witness for `C10_duplicate_triples` on a twice-repeated triple. -/
theorem C10_witness :
    2 ≤ ([((0 : Nat), 1, (5 : Int)), (0, 1, 5)]).count ((0 : Nat), 1, (5 : Int)) ∧
    (2 ≤ (edgesOf (buildGraph [((0 : Nat), 1, (5 : Int)), (0, 1, 5)]) 0).count (1, 5) ∧
      ((parentsOf (buildGraph [((0 : Nat), 1, (5 : Int)), (0, 1, 5)]) 1).map Prod.fst).count 0 = 1 ∧
      alookup 0 (parentsOf (buildGraph [((0 : Nat), 1, (5 : Int)), (0, 1, 5)]) 1) =
        lastWeight 0 1 [((0 : Nat), 1, (5 : Int)), (0, 1, 5)]) :=
  ⟨by decide, C10_duplicate_triples [(0, 1, 5), (0, 1, 5)] 0 1 5 (by decide)⟩

/-! ### Traversal engine: cardinality bookkeeping and unfolding lemmas -/

theorem card_sdiff_insert (A p : Finset V) (v : V) (hv : v ∈ A) (hvp : v ∉ p) :
    (A \ insert v p).card + 1 = (A \ p).card := by
  have h1 : A \ insert v p = (A \ p).erase v := by
    ext x
    simp only [Finset.mem_sdiff, Finset.mem_insert, Finset.mem_erase, not_or]
    tauto
  rw [h1]
  exact Finset.card_erase_add_one (Finset.mem_sdiff.mpr ⟨hv, hvp⟩)

theorem card_sdiff_insert_lt (A p : Finset V) (v : V) (hv : v ∈ A) (hvp : v ∉ p) :
    (A \ insert v p).card < (A \ p).card := by
  have := card_sdiff_insert A p v hv hvp
  omega

theorem card_sdiff_insert_mem (A p : Finset V) (v : V) (hv : v ∈ p) :
    A \ insert v p = A \ p := by
  rw [Finset.insert_eq_self.mpr hv]

theorem card_sdiff_union_toFinset (A p : Finset V) (l : List V)
    (hnd : l.Nodup) (hsub : ∀ x ∈ l, x ∈ A) (hdis : ∀ x ∈ l, x ∉ p) :
    (A \ (p ∪ l.toFinset)).card + l.length = (A \ p).card := by
  have h1 : A \ (p ∪ l.toFinset) = (A \ p) \ l.toFinset := by
    ext x
    simp only [Finset.mem_sdiff, Finset.mem_union, not_or]
    tauto
  have h2 : l.toFinset ⊆ A \ p := by
    intro x hx
    rw [List.mem_toFinset] at hx
    exact Finset.mem_sdiff.mpr ⟨hsub x hx, hdis x hx⟩
  have h3 : l.toFinset.card = l.length := List.toFinset_card_of_nodup hnd
  rw [h1, Finset.card_sdiff h2, h3]
  have h4 : l.length ≤ (A \ p).card := by
    rw [← h3]
    exact Finset.card_le_card h2
  omega

theorem firstUnvisited_cons (e : V × Int) (rest : List (V × Int)) (p : Finset V) :
    firstUnvisited (e :: rest) p =
      if e.1 ∈ p then firstUnvisited rest p else some e.1 := rfl

theorem firstUnvisited_append_visited (pre l : List (V × Int)) (p : Finset V)
    (hpre : ∀ e ∈ pre, e.1 ∈ p) :
    firstUnvisited (pre ++ l) p = firstUnvisited l p := by
  induction pre with
  | nil => rfl
  | cons e pre ih =>
      show firstUnvisited (e :: (pre ++ l)) p = _
      rw [firstUnvisited_cons, if_pos (hpre e (List.mem_cons_self _ _))]
      exact ih (fun e' he' => hpre e' (List.mem_cons_of_mem _ he'))

theorem firstUnvisited_eq_some {l : List (V × Int)} {p : Finset V} {w : V}
    (h : firstUnvisited l p = some w) : (∃ e ∈ l, e.1 = w) ∧ w ∉ p := by
  induction l with
  | nil => simp [firstUnvisited] at h
  | cons e rest ih =>
      unfold firstUnvisited at h
      by_cases he : e.1 ∈ p
      · rw [if_pos he] at h
        obtain ⟨⟨e', he', hw⟩, hnp⟩ := ih h
        exact ⟨⟨e', List.mem_cons_of_mem _ he', hw⟩, hnp⟩
      · rw [if_neg he] at h
        rcases Option.some.inj h with rfl
        exact ⟨⟨e, List.mem_cons_self _ _, rfl⟩, he⟩

theorem dfs_iter_succ (g : Graph V) (fuel : Nat) (v : V) (rest : List V)
    (p : Finset V) :
    dfs_without_recur g (fuel + 1) (v :: rest) p =
      match firstUnvisited (edgesOf g v) (insert v p) with
      | some w => (dfs_without_recur g fuel (w :: v :: rest) (insert v p)).map
          (fun r => ((if v ∈ p then [] else [v]) ++ r.1, r.2))
      | none => (dfs_without_recur g fuel rest (insert v p)).map
          (fun r => ((if v ∈ p then [] else [v]) ++ r.1, r.2)) := rfl

theorem dfs_rec_succ (g : Graph V) (fuel : Nat) (v : V) (p : Finset V) :
    dfs_with_recur g (fuel + 1) v p =
      (dfsChildren (fun w q => dfs_with_recur g fuel w q) (edgesOf g v)
        (insert v p)).map (fun r => (v :: r.1, r.2)) := rfl

theorem dfsChildren_passed_mono
    (rec_ : V → Finset V → Option (List V × Finset V))
    (hrec : ∀ v p o p', rec_ v p = some (o, p') → p ⊆ p') :
    ∀ l q o q', dfsChildren rec_ l q = some (o, q') → q ⊆ q' := by
  intro l
  induction l with
  | nil =>
      intro q o q' h
      obtain ⟨h1, h2⟩ := Prod.mk.injEq .. ▸ Option.some.inj h
      rw [← h2]
  | cons e rest ih =>
      intro q o q' h
      unfold dfsChildren at h
      by_cases he : e.1 ∈ q
      · rw [if_pos he] at h
        exact ih q o q' h
      · rw [if_neg he] at h
        rcases hr : rec_ e.1 q with _ | r1
        · rw [hr] at h
          simp at h
        · rcases r1 with ⟨o1, p1⟩
          rw [hr] at h
          replace h : (dfsChildren rec_ rest p1).map
              (fun r => (o1 ++ r.1, r.2)) = some (o, q') := h
          rcases hc : dfsChildren rec_ rest p1 with _ | r2
          · rw [hc] at h
            simp at h
          · rw [hc] at h
            obtain ⟨h1, h2⟩ := Prod.mk.injEq .. ▸ Option.some.inj h
            have step1 : q ⊆ p1 := hrec e.1 q o1 p1 hr
            have step2 : p1 ⊆ r2.2 := ih p1 r2.1 r2.2 (by rw [hc])
            rw [← h2]
            exact step1.trans step2

theorem dfs_with_recur_passed_mono (g : Graph V) :
    ∀ fuel v p o p', dfs_with_recur g fuel v p = some (o, p') →
      insert v p ⊆ p' := by
  intro fuel
  induction fuel with
  | zero =>
      intro v p o p' h
      simp [dfs_with_recur] at h
  | succ fuel ih =>
      intro v p o p' h
      rw [dfs_rec_succ] at h
      rcases hc : dfsChildren (fun w q => dfs_with_recur g fuel w q)
          (edgesOf g v) (insert v p) with _ | r
      · rw [hc] at h
        simp at h
      · rw [hc] at h
        obtain ⟨h1, h2⟩ := Prod.mk.injEq .. ▸ Option.some.inj h
        have hmono : insert v p ⊆ r.2 :=
          dfsChildren_passed_mono _
            (fun v' p' o' p'' hr => (Finset.subset_insert v' p').trans
              (ih v' p' o' p'' hr))
            _ _ r.1 r.2 (by rw [hc])
        rw [← h2]
        exact hmono

theorem dfsChildren_cons (rec_ : V → Finset V → Option (List V × Finset V))
    (e : V × Int) (rest : List (V × Int)) (q : Finset V) :
    dfsChildren rec_ (e :: rest) q =
      if e.1 ∈ q then dfsChildren rec_ rest q
      else
        match rec_ e.1 q with
        | none => none
        | some (o1, p1) =>
            (dfsChildren rec_ rest p1).map (fun r => (o1 ++ r.1, r.2)) := rfl

theorem dfsChildren_spec (g : Graph V) (fuel : Nat)
    (ihrec : ∀ v p, v ∈ vertexSet g → v ∉ p → (vertexSet g \ p).card < fuel →
      ∃ o p', dfs_with_recur g fuel v p = some (o, p') ∧
        o.Nodup ∧ o.toFinset = p' \ p ∧ p ⊆ p' ∧ p' ⊆ p ∪ vertexSet g) :
    ∀ l q, (∀ e ∈ l, e.1 ∈ keys g) → (vertexSet g \ q).card < fuel →
      ∃ o q', dfsChildren (fun w q2 => dfs_with_recur g fuel w q2) l q = some (o, q') ∧
        o.Nodup ∧ o.toFinset = q' \ q ∧ q ⊆ q' ∧ q' ⊆ q ∪ vertexSet g := by
  intro l
  induction l with
  | nil =>
      intro q hl hc
      exact ⟨[], q, rfl, List.nodup_nil, by simp, Finset.Subset.refl q,
        Finset.subset_union_left⟩
  | cons e rest ihl =>
      intro q hl hc
      by_cases he : e.1 ∈ q
      · obtain ⟨o, q', hrun, hprops⟩ :=
          ihl q (fun e' he' => hl e' (List.mem_cons_of_mem _ he')) hc
        refine ⟨o, q', ?_, hprops⟩
        rw [dfsChildren_cons, if_pos he]
        exact hrun
      · have hemem : e.1 ∈ vertexSet g := by
          rw [vertexSet, List.mem_toFinset]
          exact hl e (List.mem_cons_self _ _)
        obtain ⟨o1, p1, hrun1, hnd1, hset1, hsub1, hclo1⟩ := ihrec e.1 q hemem he hc
        have hq1 : (vertexSet g \ p1).card < fuel := by
          have hss : vertexSet g \ p1 ⊆ vertexSet g \ q :=
            Finset.sdiff_subset_sdiff (Finset.Subset.refl _) hsub1
          exact lt_of_le_of_lt (Finset.card_le_card hss) hc
        obtain ⟨o2, q2, hrun2, hnd2, hset2, hsub2, hclo2⟩ :=
          ihl p1 (fun e' he' => hl e' (List.mem_cons_of_mem _ he')) hq1
        refine ⟨o1 ++ o2, q2, ?_, ?_, ?_, hsub1.trans hsub2, ?_⟩
        · rw [dfsChildren_cons, if_neg he, hrun1]
          show (dfsChildren (fun w q2 => dfs_with_recur g fuel w q2) rest p1).map
              (fun r => (o1 ++ r.1, r.2)) = some (o1 ++ o2, q2)
          rw [hrun2]
          rfl
        · refine hnd1.append hnd2 ?_
          intro a ha1 ha2
          have h1 : a ∈ p1 \ q := by
            rw [← hset1]
            exact List.mem_toFinset.mpr ha1
          have h2 : a ∈ q2 \ p1 := by
            rw [← hset2]
            exact List.mem_toFinset.mpr ha2
          exact (Finset.mem_sdiff.mp h2).2 (Finset.mem_sdiff.mp h1).1
        · rw [List.toFinset_append, hset1, hset2]
          ext x
          simp only [Finset.mem_union, Finset.mem_sdiff]
          constructor
          · rintro (⟨h1, h2⟩ | ⟨h1, h2⟩)
            · exact ⟨hsub2 h1, h2⟩
            · exact ⟨h1, fun hq => h2 (hsub1 hq)⟩
          · rintro ⟨h1, h2⟩
            by_cases hx : x ∈ p1
            · exact Or.inl ⟨hx, h2⟩
            · exact Or.inr ⟨h1, hx⟩
        · intro x hx
          rcases Finset.mem_union.mp (hclo2 hx) with h | h
          · exact hclo1 h
          · exact Finset.mem_union_right q h

theorem dfs_with_recur_spec (g : Graph V)
    (hcl : ∀ v, ∀ e ∈ edgesOf g v, e.1 ∈ keys g) :
    ∀ fuel v p, v ∈ vertexSet g → v ∉ p → (vertexSet g \ p).card < fuel →
      ∃ o p', dfs_with_recur g fuel v p = some (o, p') ∧
        o.Nodup ∧ o.toFinset = p' \ p ∧ p ⊆ p' ∧ p' ⊆ p ∪ vertexSet g ∧
        v ∈ p' := by
  intro fuel
  induction fuel with
  | zero =>
      intro v p hv hvp hc
      exact absurd hc (Nat.not_lt_zero _)
  | succ fuel ih =>
      intro v p hv hvp hc
      have hih : ∀ v p, v ∈ vertexSet g → v ∉ p → (vertexSet g \ p).card < fuel →
          ∃ o p', dfs_with_recur g fuel v p = some (o, p') ∧
            o.Nodup ∧ o.toFinset = p' \ p ∧ p ⊆ p' ∧ p' ⊆ p ∪ vertexSet g :=
        fun v p hv hvp hc => by
          obtain ⟨o, p', h1, h2, h3, h4, h5, _⟩ := ih v p hv hvp hc
          exact ⟨o, p', h1, h2, h3, h4, h5⟩
      have hc1 : (vertexSet g \ insert v p).card < fuel := by
        have := card_sdiff_insert (vertexSet g) p v hv hvp
        omega
      obtain ⟨oc, pc, hrun, hnd, hset, hsub, hclo⟩ :=
        dfsChildren_spec g fuel hih (edgesOf g v) (insert v p) (hcl v) hc1
      have hvpc : v ∈ pc := hsub (Finset.mem_insert_self v p)
      refine ⟨v :: oc, pc, ?_, ?_, ?_, ?_, ?_, hvpc⟩
      · rw [dfs_rec_succ, hrun]
        rfl
      · refine List.nodup_cons.mpr ⟨?_, hnd⟩
        intro hvo
        have hmem : v ∈ pc \ insert v p := by
          rw [← hset]
          exact List.mem_toFinset.mpr hvo
        exact (Finset.mem_sdiff.mp hmem).2 (Finset.mem_insert_self v p)
      · rw [List.toFinset_cons, hset]
        ext x
        simp only [Finset.mem_insert, Finset.mem_sdiff]
        constructor
        · rintro (rfl | ⟨h1, h2⟩)
          · exact ⟨hvpc, hvp⟩
          · exact ⟨h1, fun hx => h2 (Or.inr hx)⟩
        · rintro ⟨h1, h2⟩
          by_cases hx : x = v
          · exact Or.inl hx
          · refine Or.inr ⟨h1, fun hor => ?_⟩
            rcases hor with h | h
            · exact hx h
            · exact h2 h
      · exact (Finset.subset_insert v p).trans hsub
      · intro x hx
        rcases Finset.mem_union.mp (hclo hx) with h | h
        · rcases Finset.mem_insert.mp h with rfl | h2
          · exact Finset.mem_union_right p hv
          · exact Finset.mem_union_left _ h2
        · exact Finset.mem_union_right p h

theorem dfsSlack_cons (v : V) (rest : List V) (p : Finset V) :
    dfsSlack (v :: rest) p = if v ∈ p then 0 else 3 := rfl

theorem dfs_iter_nil (g : Graph V) (fuel : Nat) (p : Finset V) :
    dfs_without_recur g fuel [] p = some ([], p) := by
  cases fuel <;> rfl

theorem dfsChildren_congr
    (rec1 rec2 : V → Finset V → Option (List V × Finset V))
    (h : ∀ v p r, rec1 v p = some r → rec2 v p = some r) :
    ∀ l q r, dfsChildren rec1 l q = some r → dfsChildren rec2 l q = some r := by
  intro l
  induction l with
  | nil =>
      intro q r hr
      exact hr
  | cons e rest ih =>
      intro q r hr
      rw [dfsChildren_cons] at hr ⊢
      by_cases he : e.1 ∈ q
      · rw [if_pos he] at hr ⊢
        exact ih q r hr
      · rw [if_neg he] at hr ⊢
        rcases h1 : rec1 e.1 q with _ | r1
        · rw [h1] at hr
          replace hr : (none : Option (List V × Finset V)) = some r := hr
          exact Option.noConfusion hr
        · rcases r1 with ⟨o1, p1⟩
          rw [h1] at hr
          replace hr : (dfsChildren rec1 rest p1).map
              (fun r => (o1 ++ r.1, r.2)) = some r := hr
          rcases h2 : dfsChildren rec1 rest p1 with _ | r2
          · rw [h2] at hr
            simp at hr
          · rw [h2] at hr
            rw [h e.1 q (o1, p1) h1]
            show (dfsChildren rec2 rest p1).map
                (fun r => (o1 ++ r.1, r.2)) = some r
            rw [ih p1 r2 h2]
            exact hr

theorem dfs_with_recur_mono (g : Graph V) :
    ∀ fuel fuel', fuel ≤ fuel' → ∀ v p r,
      dfs_with_recur g fuel v p = some r → dfs_with_recur g fuel' v p = some r := by
  intro fuel
  induction fuel with
  | zero =>
      intro fuel' h v p r hr
      simp [dfs_with_recur] at hr
  | succ fuel ih =>
      intro fuel' h v p r hr
      obtain ⟨f2, rfl⟩ : ∃ f2, fuel' = f2 + 1 := ⟨fuel' - 1, by omega⟩
      have hle : fuel ≤ f2 := by omega
      rw [dfs_rec_succ] at hr ⊢
      rcases hc : dfsChildren (fun w q => dfs_with_recur g fuel w q)
          (edgesOf g v) (insert v p) with _ | rc
      · rw [hc] at hr
        simp at hr
      · rw [hc] at hr
        rw [dfsChildren_congr _ _ (fun v' p' r' hrr => ih f2 hle v' p' r' hrr)
          _ _ rc hc]
        exact hr

theorem dfs_without_recur_mono (g : Graph V) :
    ∀ fuel fuel', fuel ≤ fuel' → ∀ s p r,
      dfs_without_recur g fuel s p = some r →
      dfs_without_recur g fuel' s p = some r := by
  intro fuel
  induction fuel with
  | zero =>
      intro fuel' h s p r hr
      cases s with
      | nil =>
          rw [dfs_iter_nil] at hr
          rw [dfs_iter_nil]
          exact hr
      | cons v rest =>
          replace hr : (none : Option (List V × Finset V)) = some r := hr
          exact Option.noConfusion hr
  | succ fuel ih =>
      intro fuel' h s p r hr
      cases s with
      | nil =>
          rw [dfs_iter_nil] at hr
          rw [dfs_iter_nil]
          exact hr
      | cons v rest =>
          obtain ⟨f2, rfl⟩ : ∃ f2, fuel' = f2 + 1 := ⟨fuel' - 1, by omega⟩
          have hle : fuel ≤ f2 := by omega
          rw [dfs_iter_succ] at hr ⊢
          revert hr
          rcases hf : firstUnvisited (edgesOf g v) (insert v p) with _ | w
          · intro hr
            replace hr : (dfs_without_recur g fuel rest (insert v p)).map
                (fun r => ((if v ∈ p then [] else [v]) ++ r.1, r.2)) = some r := hr
            show (dfs_without_recur g f2 rest (insert v p)).map
                (fun r => ((if v ∈ p then [] else [v]) ++ r.1, r.2)) = some r
            rcases hrr : dfs_without_recur g fuel rest (insert v p) with _ | r0
            · rw [hrr] at hr
              simp at hr
            · rw [hrr] at hr
              rw [ih f2 hle _ _ r0 hrr]
              exact hr
          · intro hr
            replace hr : (dfs_without_recur g fuel (w :: v :: rest) (insert v p)).map
                (fun r => ((if v ∈ p then [] else [v]) ++ r.1, r.2)) = some r := hr
            show (dfs_without_recur g f2 (w :: v :: rest) (insert v p)).map
                (fun r => ((if v ∈ p then [] else [v]) ++ r.1, r.2)) = some r
            rcases hrr : dfs_without_recur g fuel (w :: v :: rest) (insert v p)
                with _ | r0
            · rw [hrr] at hr
              simp at hr
            · rw [hrr] at hr
              rw [ih f2 hle _ _ r0 hrr]
              exact hr

theorem dfs_without_recur_adequate (g : Graph V)
    (hcl : ∀ v, ∀ e ∈ edgesOf g v, e.1 ∈ keys g) :
    ∀ fuel stack p,
      (∀ x ∈ stack, x ∈ vertexSet g) →
      (∀ x ∈ stack.tail, x ∈ p) →
      stack.length + 4 * (vertexSet g \ p).card ≤ fuel + dfsSlack stack p →
      (dfs_without_recur g fuel stack p).isSome = true := by
  intro fuel
  induction fuel with
  | zero =>
      intro stack p hA htail hb
      cases stack with
      | nil =>
          rw [dfs_iter_nil]
          rfl
      | cons v rest =>
          exfalso
          by_cases hv : v ∈ p
          · have hs : dfsSlack (v :: rest) p = 0 := by
              rw [dfsSlack_cons, if_pos hv]
            rw [hs] at hb
            rw [List.length_cons] at hb
            omega
          · have hs : dfsSlack (v :: rest) p = 3 := by
              rw [dfsSlack_cons, if_neg hv]
            rw [hs] at hb
            have hmem : v ∈ vertexSet g \ p :=
              Finset.mem_sdiff.mpr ⟨hA v (List.mem_cons_self _ _), hv⟩
            have hpos : 0 < (vertexSet g \ p).card :=
              Finset.card_pos.mpr ⟨v, hmem⟩
            rw [List.length_cons] at hb
            omega
  | succ fuel ih =>
      intro stack p hA htail hb
      cases stack with
      | nil =>
          rw [dfs_iter_nil]
          rfl
      | cons v rest =>
          rw [dfs_iter_succ]
          rcases hf : firstUnvisited (edgesOf g v) (insert v p) with _ | w
          · have happ : (dfs_without_recur g fuel rest (insert v p)).isSome = true := by
              apply ih rest (insert v p)
              · exact fun x hx => hA x (List.mem_cons_of_mem _ hx)
              · intro x hx
                exact Finset.mem_insert_of_mem (htail x (List.mem_of_mem_tail hx))
              · have hgoal : rest.length + 4 * (vertexSet g \ insert v p).card ≤ fuel := by
                  by_cases hv : v ∈ p
                  · rw [card_sdiff_insert_mem _ _ _ hv]
                    have hs : dfsSlack (v :: rest) p = 0 := by
                      rw [dfsSlack_cons, if_pos hv]
                    rw [hs, List.length_cons] at hb
                    omega
                  · have hcard := card_sdiff_insert (vertexSet g) p v
                      (hA v (List.mem_cons_self _ _)) hv
                    have hs : dfsSlack (v :: rest) p = 3 := by
                      rw [dfsSlack_cons, if_neg hv]
                    rw [hs, List.length_cons] at hb
                    omega
                exact le_trans hgoal (Nat.le_add_right _ _)
            obtain ⟨r0, hr0⟩ := Option.isSome_iff_exists.mp happ
            rw [hr0]
            rfl
          · obtain ⟨⟨e, hemem, hew⟩, hwp⟩ := firstUnvisited_eq_some hf
            have hwA : w ∈ vertexSet g := by
              rw [vertexSet, List.mem_toFinset, ← hew]
              exact hcl v e hemem
            have happ : (dfs_without_recur g fuel (w :: v :: rest)
                (insert v p)).isSome = true := by
              apply ih
              · intro x hx
                rcases List.mem_cons.mp hx with rfl | hx2
                · exact hwA
                · exact hA x hx2
              · intro x hx
                rcases List.mem_cons.mp hx with rfl | hx2
                · exact Finset.mem_insert_self _ _
                · exact Finset.mem_insert_of_mem (htail x hx2)
              · have hsw : dfsSlack (w :: v :: rest) (insert v p) = 3 := by
                  rw [dfsSlack_cons, if_neg hwp]
                rw [hsw]
                by_cases hv : v ∈ p
                · rw [card_sdiff_insert_mem _ _ _ hv]
                  have hs : dfsSlack (v :: rest) p = 0 := by
                    rw [dfsSlack_cons, if_pos hv]
                  rw [hs, List.length_cons] at hb
                  rw [List.length_cons, List.length_cons]
                  omega
                · have hcard := card_sdiff_insert (vertexSet g) p v
                    (hA v (List.mem_cons_self _ _)) hv
                  have hs : dfsSlack (v :: rest) p = 3 := by
                    rw [dfsSlack_cons, if_neg hv]
                  rw [hs, List.length_cons] at hb
                  rw [List.length_cons, List.length_cons]
                  omega
            obtain ⟨r0, hr0⟩ := Option.isSome_iff_exists.mp happ
            show ((dfs_without_recur g fuel (w :: v :: rest) (insert v p)).map
                (fun r => ((if v ∈ p then [] else [v]) ++ r.1, r.2))).isSome = true
            rw [hr0]
            rfl

theorem dfs_iter_step_mark (g : Graph V) (v : V) (rest : List V) (p : Finset V)
    (hvp : v ∉ p) :
    ∀ f O P, dfs_without_recur g f (v :: rest) (insert v p) = some (O, P) →
      dfs_without_recur g (f + 1) (v :: rest) p = some (v :: O, P) := by
  intro f O P h
  cases f with
  | zero =>
      replace h : (none : Option (List V × Finset V)) = some (O, P) := h
      exact Option.noConfusion h
  | succ f =>
      rw [dfs_iter_succ] at h
      rw [dfs_iter_succ]
      have hins : insert v (insert v p) = insert v p := Finset.insert_idem v p
      rw [hins] at h
      revert h
      rcases hf : firstUnvisited (edgesOf g v) (insert v p) with _ | w
      · intro h
        replace h : (dfs_without_recur g f rest (insert v p)).map
            (fun r => ((if v ∈ insert v p then [] else [v]) ++ r.1, r.2)) =
            some (O, P) := h
        show (dfs_without_recur g (f + 1) rest (insert v p)).map
            (fun r => ((if v ∈ p then [] else [v]) ++ r.1, r.2)) =
            some (v :: O, P)
        rcases hrr : dfs_without_recur g f rest (insert v p) with _ | r0
        · rw [hrr] at h
          simp at h
        · rw [hrr] at h
          rw [if_pos (Finset.mem_insert_self v p)] at h
          rw [dfs_without_recur_mono g f (f + 1) (Nat.le_succ f) _ _ r0 hrr,
            if_neg hvp]
          obtain ⟨h1, h2⟩ := Prod.mk.injEq .. ▸ Option.some.inj h
          rw [List.nil_append] at h1
          rw [← h1, ← h2]
          rfl
      · intro h
        replace h : (dfs_without_recur g f (w :: v :: rest) (insert v p)).map
            (fun r => ((if v ∈ insert v p then [] else [v]) ++ r.1, r.2)) =
            some (O, P) := h
        show (dfs_without_recur g (f + 1) (w :: v :: rest) (insert v p)).map
            (fun r => ((if v ∈ p then [] else [v]) ++ r.1, r.2)) =
            some (v :: O, P)
        rcases hrr : dfs_without_recur g f (w :: v :: rest) (insert v p) with _ | r0
        · rw [hrr] at h
          simp at h
        · rw [hrr] at h
          rw [if_pos (Finset.mem_insert_self v p)] at h
          rw [dfs_without_recur_mono g f (f + 1) (Nat.le_succ f) _ _ r0 hrr,
            if_neg hvp]
          obtain ⟨h1, h2⟩ := Prod.mk.injEq .. ▸ Option.some.inj h
          rw [List.nil_append] at h1
          rw [← h1, ← h2]
          rfl

theorem dfs_sim_children (g : Graph V) (fuel : Nat)
    (ihsim : ∀ v p o p', v ∉ p → dfs_with_recur g fuel v p = some (o, p') →
      ∀ rest f2 O P, dfs_without_recur g f2 rest p' = some (O, P) →
        ∃ f3, dfs_without_recur g f3 (v :: rest) p = some (o ++ O, P)) :
    ∀ l pre v p2 o p3,
      edgesOf g v = pre ++ l →
      (∀ e ∈ pre, e.1 ∈ p2) →
      v ∈ p2 →
      dfsChildren (fun w q => dfs_with_recur g fuel w q) l p2 = some (o, p3) →
      ∀ rest f2 O P, dfs_without_recur g f2 rest p3 = some (O, P) →
        ∃ f3, dfs_without_recur g f3 (v :: rest) p2 = some (o ++ O, P) := by
  intro l
  induction l with
  | nil =>
      intro pre v p2 o p3 hedges hpre hv hrun rest f2 O P hrest
      obtain ⟨h1, h2⟩ := Prod.mk.injEq .. ▸ Option.some.inj hrun
      subst h1
      subst h2
      refine ⟨f2 + 1, ?_⟩
      rw [dfs_iter_succ, Finset.insert_eq_self.mpr hv]
      have hfu : firstUnvisited (edgesOf g v) p2 = none := by
        rw [hedges, firstUnvisited_append_visited pre _ _ hpre]
        rfl
      rw [hfu]
      show (dfs_without_recur g f2 rest p2).map
          (fun r => ((if v ∈ p2 then [] else [v]) ++ r.1, r.2)) =
          some ([] ++ O, P)
      rw [hrest, if_pos hv]
      rfl
  | cons e l ihl =>
      intro pre v p2 o p3 hedges hpre hv hrun rest f2 O P hrest
      rw [dfsChildren_cons] at hrun
      by_cases he : e.1 ∈ p2
      · rw [if_pos he] at hrun
        refine ihl (pre ++ [e]) v p2 o p3 ?_ ?_ hv hrun rest f2 O P hrest
        · rw [hedges, List.append_assoc]
          rfl
        · intro e' he'
          rcases List.mem_append.mp he' with h | h
          · exact hpre e' h
          · rcases List.mem_singleton.mp h with rfl
            exact he
      · rw [if_neg he] at hrun
        rcases hrec : dfs_with_recur g fuel e.1 p2 with _ | r1
        · rw [hrec] at hrun
          replace hrun : (none : Option (List V × Finset V)) = some (o, p3) := hrun
          exact Option.noConfusion hrun
        · rcases r1 with ⟨o1, p4⟩
          rw [hrec] at hrun
          replace hrun : (dfsChildren (fun w q => dfs_with_recur g fuel w q) l p4).map
              (fun r => (o1 ++ r.1, r.2)) = some (o, p3) := hrun
          rcases hch : dfsChildren (fun w q => dfs_with_recur g fuel w q) l p4
              with _ | r2
          · rw [hch] at hrun
            simp at hrun
          · rcases r2 with ⟨o2, p5⟩
            rw [hch] at hrun
            obtain ⟨h1, h2⟩ := Prod.mk.injEq .. ▸ Option.some.inj hrun
            subst h1
            subst h2
            have hin4 : insert e.1 p2 ⊆ p4 :=
              dfs_with_recur_passed_mono g fuel e.1 p2 o1 p4 hrec
            have hsub24 : p2 ⊆ p4 := (Finset.subset_insert e.1 p2).trans hin4
            obtain ⟨f3, hf3⟩ := ihl (pre ++ [e]) v p4 o2 p5
              (by rw [hedges, List.append_assoc]; rfl)
              (by
                intro e' he'
                rcases List.mem_append.mp he' with h | h
                · exact hsub24 (hpre e' h)
                · rcases List.mem_singleton.mp h with rfl
                  exact hin4 (Finset.mem_insert_self _ _))
              (hsub24 hv) hch rest f2 O P hrest
            obtain ⟨f4, hf4⟩ :=
              ihsim e.1 p2 o1 p4 he hrec (v :: rest) f3 (o2 ++ O) P hf3
            refine ⟨f4 + 1, ?_⟩
            rw [dfs_iter_succ, Finset.insert_eq_self.mpr hv]
            have hfu : firstUnvisited (edgesOf g v) p2 = some e.1 := by
              rw [hedges, firstUnvisited_append_visited pre _ _ hpre,
                firstUnvisited_cons, if_neg he]
            rw [hfu]
            show (dfs_without_recur g f4 (e.1 :: v :: rest) p2).map
                (fun r => ((if v ∈ p2 then [] else [v]) ++ r.1, r.2)) =
                some (o1 ++ o2 ++ O, P)
            rw [hf4, if_pos hv]
            simp [List.append_assoc]

theorem dfs_sim (g : Graph V) :
    ∀ fuel v p o p', v ∉ p →
      dfs_with_recur g fuel v p = some (o, p') →
      ∀ rest f2 O P, dfs_without_recur g f2 rest p' = some (O, P) →
        ∃ f3, dfs_without_recur g f3 (v :: rest) p = some (o ++ O, P) := by
  intro fuel
  induction fuel with
  | zero =>
      intro v p o p' hvp hrun
      simp [dfs_with_recur] at hrun
  | succ fuel ih =>
      intro v p o p' hvp hrun rest f2 O P hrest
      rw [dfs_rec_succ] at hrun
      rcases hch : dfsChildren (fun w q => dfs_with_recur g fuel w q)
          (edgesOf g v) (insert v p) with _ | rc
      · rw [hch] at hrun
        simp at hrun
      · rcases rc with ⟨oc, pc⟩
        rw [hch] at hrun
        replace hrun : (some (v :: oc, pc) : Option (List V × Finset V)) =
            some (o, p') := hrun
        obtain ⟨h1, h2⟩ := Prod.mk.injEq .. ▸ Option.some.inj hrun
        subst h1
        subst h2
        obtain ⟨f3, hf3⟩ := dfs_sim_children g fuel ih (edgesOf g v) [] v
          (insert v p) oc pc (List.nil_append _).symm
          (fun e he => absurd he (List.not_mem_nil e))
          (Finset.mem_insert_self v p) hch rest f2 O P hrest
        exact ⟨f3 + 1, dfs_iter_step_mark g v rest p hvp f3 (oc ++ O) P hf3⟩

theorem card_sdiff_le_n (g : Graph V) (p : Finset V)
    (hcount : g.n_vertex = (keys g).length) (hknd : (keys g).Nodup) :
    (vertexSet g \ p).card ≤ g.n_vertex := by
  have h1 : (vertexSet g \ p).card ≤ (vertexSet g).card :=
    Finset.card_le_card Finset.sdiff_subset
  have h2 : (vertexSet g).card = g.n_vertex := by
    rw [vertexSet, List.toFinset_card_of_nodup hknd, hcount]
  omega

theorem dfs_iter_launch_eq_rec (g : Graph V)
    (hcl : ∀ v, ∀ e ∈ edgesOf g v, e.1 ∈ keys g)
    (hcount : g.n_vertex = (keys g).length)
    (hknd : (keys g).Nodup) :
    ∀ v p, v ∈ vertexSet g → v ∉ p →
      dfs_without_recur g (dfsIterFuel g) [v] p =
        dfs_with_recur g (dfsRecFuel g) v p := by
  intro v p hv hvp
  have hcard : (vertexSet g \ p).card ≤ g.n_vertex := card_sdiff_le_n g p hcount hknd
  have hlt : (vertexSet g \ p).card < dfsRecFuel g := by
    unfold dfsRecFuel
    omega
  obtain ⟨o, p', hrun, hndp, hset, hsub, hclo, hvp'⟩ :=
    dfs_with_recur_spec g hcl (dfsRecFuel g) v p hv hvp hlt
  obtain ⟨f3, hf3⟩ := dfs_sim g (dfsRecFuel g) v p o p' hvp hrun [] 0 [] p'
    (dfs_iter_nil g 0 p')
  rw [List.append_nil] at hf3
  have hadq : (dfs_without_recur g (dfsIterFuel g) [v] p).isSome = true := by
    apply dfs_without_recur_adequate g hcl
    · intro x hx
      rcases List.mem_singleton.mp hx with rfl
      exact hv
    · intro x hx
      simp at hx
    · have hs : dfsSlack [v] p = 3 := by
        rw [dfsSlack_cons, if_neg hvp]
      rw [hs]
      unfold dfsIterFuel
      rw [List.length_singleton]
      omega
  obtain ⟨r, hr⟩ := Option.isSome_iff_exists.mp hadq
  have hmax1 := dfs_without_recur_mono g (dfsIterFuel g) (max (dfsIterFuel g) f3)
    (le_max_left _ _) _ _ r hr
  have hmax2 := dfs_without_recur_mono g f3 (max (dfsIterFuel g) f3)
    (le_max_right _ _) _ _ (o, p') hf3
  rw [hmax1] at hmax2
  rw [hr, hrun]
  exact hmax2

theorem dfs_iter_launch_spec (g : Graph V)
    (hcl : ∀ v, ∀ e ∈ edgesOf g v, e.1 ∈ keys g)
    (hcount : g.n_vertex = (keys g).length)
    (hknd : (keys g).Nodup) :
    ∀ v p, v ∈ vertexSet g → v ∉ p →
      ∃ o p', dfs_without_recur g (dfsIterFuel g) [v] p = some (o, p') ∧
        o.Nodup ∧ o.toFinset = p' \ p ∧ p ⊆ p' ∧ p' ⊆ p ∪ vertexSet g ∧
        v ∈ p' := by
  intro v p hv hvp
  have hcard : (vertexSet g \ p).card ≤ g.n_vertex := card_sdiff_le_n g p hcount hknd
  have hlt : (vertexSet g \ p).card < dfsRecFuel g := by
    unfold dfsRecFuel
    omega
  obtain ⟨o, p', hrun, hprops⟩ :=
    dfs_with_recur_spec g hcl (dfsRecFuel g) v p hv hvp hlt
  refine ⟨o, p', ?_, hprops⟩
  rw [dfs_iter_launch_eq_rec g hcl hcount hknd v p hv hvp]
  exact hrun

theorem dfs_rec_launch_spec (g : Graph V)
    (hcl : ∀ v, ∀ e ∈ edgesOf g v, e.1 ∈ keys g)
    (hcount : g.n_vertex = (keys g).length)
    (hknd : (keys g).Nodup) :
    ∀ v p, v ∈ vertexSet g → v ∉ p →
      ∃ o p', dfs_with_recur g (dfsRecFuel g) v p = some (o, p') ∧
        o.Nodup ∧ o.toFinset = p' \ p ∧ p ⊆ p' ∧ p' ⊆ p ∪ vertexSet g ∧
        v ∈ p' := by
  intro v p hv hvp
  have hcard : (vertexSet g \ p).card ≤ g.n_vertex := card_sdiff_le_n g p hcount hknd
  have hlt : (vertexSet g \ p).card < dfsRecFuel g := by
    unfold dfsRecFuel
    omega
  exact dfs_with_recur_spec g hcl (dfsRecFuel g) v p hv hvp hlt

theorem enqueueAll_cons (e : V × Int) (rest : List (V × Int)) (p : Finset V) :
    enqueueAll (e :: rest) p =
      if e.1 ∈ p then enqueueAll rest p
      else (e.1 :: (enqueueAll rest (insert e.1 p)).1,
        (enqueueAll rest (insert e.1 p)).2) := rfl

theorem enqueueAll_spec (edges : List (V × Int)) :
    ∀ p : Finset V, (enqueueAll edges p).2 = p ∪ (enqueueAll edges p).1.toFinset ∧
      (enqueueAll edges p).1.Nodup ∧
      (∀ x ∈ (enqueueAll edges p).1, x ∉ p) ∧
      (∀ x ∈ (enqueueAll edges p).1, ∃ e ∈ edges, e.1 = x) := by
  induction edges with
  | nil =>
      intro p
      refine ⟨by simp [enqueueAll], List.nodup_nil, ?_, ?_⟩ <;>
        intro x hx <;> exact absurd hx (List.not_mem_nil x)
  | cons e rest ih =>
      intro p
      rw [enqueueAll_cons]
      by_cases he : e.1 ∈ p
      · rw [if_pos he]
        obtain ⟨h1, h2, h3, h4⟩ := ih p
        refine ⟨h1, h2, h3, ?_⟩
        intro x hx
        obtain ⟨e', he', hx'⟩ := h4 x hx
        exact ⟨e', List.mem_cons_of_mem _ he', hx'⟩
      · rw [if_neg he]
        obtain ⟨h1, h2, h3, h4⟩ := ih (insert e.1 p)
        refine ⟨?_, ?_, ?_, ?_⟩
        · show (enqueueAll rest (insert e.1 p)).2 = _
          rw [h1, List.toFinset_cons]
          ext x
          simp only [Finset.mem_union, Finset.mem_insert, List.mem_toFinset]
          tauto
        · refine List.nodup_cons.mpr ⟨?_, h2⟩
          intro hx
          exact (h3 e.1 hx) (Finset.mem_insert_self _ _)
        · intro x hx
          rcases List.mem_cons.mp hx with rfl | hx2
          · exact he
          · exact fun hp => (h3 x hx2) (Finset.mem_insert_of_mem hp)
        · intro x hx
          rcases List.mem_cons.mp hx with rfl | hx2
          · exact ⟨e, List.mem_cons_self _ _, rfl⟩
          · obtain ⟨e', he', hx'⟩ := h4 x hx2
            exact ⟨e', List.mem_cons_of_mem _ he', hx'⟩

theorem bfsLoop_nil (g : Graph V) (fuel : Nat) (p : Finset V) :
    bfsLoop g fuel [] p = some ([], p) := by
  cases fuel <;> rfl

theorem bfsLoop_succ (g : Graph V) (fuel : Nat) (v : V) (qrest : List V)
    (p : Finset V) :
    bfsLoop g (fuel + 1) (v :: qrest) p =
      (bfsLoop g fuel (qrest ++ (enqueueAll (edgesOf g v) (insert v p)).1)
        (enqueueAll (edgesOf g v) (insert v p)).2).map
        (fun r => (v :: r.1, r.2)) := rfl

theorem bfsLoop_spec (g : Graph V)
    (hcl : ∀ v, ∀ e ∈ edgesOf g v, e.1 ∈ keys g) :
    ∀ fuel queue p,
      (∀ x ∈ queue, x ∈ vertexSet g) →
      (∀ x ∈ queue, x ∈ p) →
      queue.Nodup →
      queue.length + (vertexSet g \ p).card ≤ fuel →
      ∃ o p', bfsLoop g fuel queue p = some (o, p') ∧
        o.Nodup ∧ o.toFinset = queue.toFinset ∪ ( p' \ p) ∧ p ⊆ p' ∧
        p' ⊆ p ∪ vertexSet g := by
  intro fuel
  induction fuel with
  | zero =>
      intro queue p hA hqp hnd hle
      cases queue with
      | nil =>
          exact ⟨[], p, bfsLoop_nil g 0 p, List.nodup_nil, by simp,
            Finset.Subset.refl p, Finset.subset_union_left⟩
      | cons v qrest =>
          rw [List.length_cons] at hle
          omega
  | succ fuel ih =>
      intro queue p hA hqp hnd hle
      cases queue with
      | nil =>
          exact ⟨[], p, bfsLoop_nil g _ p, List.nodup_nil, by simp,
            Finset.Subset.refl p, Finset.subset_union_left⟩
      | cons v qrest =>
          have hv : v ∈ p := hqp v (List.mem_cons_self _ _)
          have hvins : insert v p = p := Finset.insert_eq_self.mpr hv
          obtain ⟨h1, h2, h3, h4⟩ := enqueueAll_spec (edgesOf g v) (insert v p)
          set newq := (enqueueAll (edgesOf g v) (insert v p)).1 with hnewq
          set p2 := (enqueueAll (edgesOf g v) (insert v p)).2 with hp2def
          have hnewA : ∀ x ∈ newq, x ∈ vertexSet g := by
            intro x hx
            obtain ⟨e, he, hex⟩ := h4 x hx
            rw [vertexSet, List.mem_toFinset, ← hex]
            exact hcl v e he
          have hnewp : ∀ x ∈ newq, x ∉ p := by
            intro x hx hxp
            exact (h3 x hx) (by rw [hvins]; exact hxp)
          have hp2 : p2 = p ∪ newq.toFinset := by
            rw [h1, hvins]
          have hsubp2 : p ⊆ p2 := by
            rw [hp2]
            exact Finset.subset_union_left
          have hqA : ∀ x ∈ qrest ++ newq, x ∈ vertexSet g := by
            intro x hx
            rcases List.mem_append.mp hx with h | h
            · exact hA x (List.mem_cons_of_mem _ h)
            · exact hnewA x h
          have hqp2 : ∀ x ∈ qrest ++ newq, x ∈ p2 := by
            intro x hx
            rcases List.mem_append.mp hx with h | h
            · exact hsubp2 (hqp x (List.mem_cons_of_mem _ h))
            · rw [hp2]
              exact Finset.mem_union_right _ (List.mem_toFinset.mpr h)
          have hqnd : (qrest ++ newq).Nodup := by
            refine (List.Nodup.of_cons hnd).append h2 ?_
            intro a ha hb
            exact (hnewp a hb) (hqp a (List.mem_cons_of_mem _ ha))
          have hcard : (vertexSet g \ p2).card + newq.length =
              (vertexSet g \ p).card := by
            rw [hp2]
            exact card_sdiff_union_toFinset _ _ _ h2 hnewA hnewp
          have hle2 : (qrest ++ newq).length + (vertexSet g \ p2).card ≤ fuel := by
            rw [List.length_append]
            rw [List.length_cons] at hle
            omega
          obtain ⟨o', p'', hrun, hnd', hset', hsub', hclo'⟩ :=
            ih (qrest ++ newq) p2 hqA hqp2 hqnd hle2
          refine ⟨v :: o', p'', ?_, ?_, ?_, hsubp2.trans hsub', ?_⟩
          · rw [bfsLoop_succ, ← hnewq, ← hp2def, hrun]
            rfl
          · refine List.nodup_cons.mpr ⟨?_, hnd'⟩
            intro hvo
            have hvin : v ∈ (qrest ++ newq).toFinset ∪ ( p'' \ p2) := by
              rw [← hset']
              exact List.mem_toFinset.mpr hvo
            rcases Finset.mem_union.mp hvin with h | h
            · rw [List.mem_toFinset] at h
              rcases List.mem_append.mp h with h | h
              · exact (List.nodup_cons.mp hnd).1 h
              · exact (hnewp v h) hv
            · exact (Finset.mem_sdiff.mp h).2 (hsubp2 hv)
          · rw [List.toFinset_cons, hset', List.toFinset_append]
            ext x
            simp only [Finset.mem_insert, Finset.mem_union, Finset.mem_sdiff,
              List.mem_toFinset, List.mem_cons]
            constructor
            · rintro (rfl | (h | h) | ⟨h5, h6⟩)
              · exact Or.inl (Or.inl rfl)
              · exact Or.inl (Or.inr h)
              · refine Or.inr ⟨hsub' ?_, hnewp x h⟩
                rw [hp2]
                exact Finset.mem_union_right _ (List.mem_toFinset.mpr h)
              · exact Or.inr ⟨h5, fun hc => h6 (hsubp2 hc)⟩
            · rintro ((rfl | h) | ⟨h5, h6⟩)
              · exact Or.inl rfl
              · exact Or.inr (Or.inl (Or.inl h))
              · by_cases hx2 : x ∈ p2
                · rw [hp2] at hx2
                  rcases Finset.mem_union.mp hx2 with h | h
                  · exact absurd h h6
                  · exact Or.inr (Or.inl (Or.inr (List.mem_toFinset.mp h)))
                · exact Or.inr (Or.inr ⟨h5, hx2⟩)
          · intro x hx
            rcases Finset.mem_union.mp (hclo' hx) with h | h
            · rw [hp2] at h
              rcases Finset.mem_union.mp h with h | h
              · exact Finset.mem_union_left _ h
              · exact Finset.mem_union_right _ (hnewA x (List.mem_toFinset.mp h))
            · exact Finset.mem_union_right _ h

theorem bfs_spec (g : Graph V)
    (hcl : ∀ v, ∀ e ∈ edgesOf g v, e.1 ∈ keys g)
    (hcount : g.n_vertex = (keys g).length)
    (hknd : (keys g).Nodup) :
    ∀ v p, v ∈ vertexSet g → v ∉ p →
      ∃ o p', bfs g v p = some (o, p') ∧
        o.Nodup ∧ o.toFinset = p' \ p ∧ p ⊆ p' ∧ p' ⊆ p ∪ vertexSet g ∧
        v ∈ p' := by
  intro v p hv hvp
  obtain ⟨h1, h2, h3, h4⟩ := enqueueAll_spec (edgesOf g v) (insert v p)
  set newq := (enqueueAll (edgesOf g v) (insert v p)).1 with hnewq
  set p2 := (enqueueAll (edgesOf g v) (insert v p)).2 with hp2def
  have hnewA : ∀ x ∈ newq, x ∈ vertexSet g := by
    intro x hx
    obtain ⟨e, he, hex⟩ := h4 x hx
    rw [vertexSet, List.mem_toFinset, ← hex]
    exact hcl v e he
  have hinsp2 : insert v p ⊆ p2 := by
    rw [h1]
    exact Finset.subset_union_left
  have hnqp2 : ∀ x ∈ newq, x ∈ p2 := by
    intro x hx
    rw [h1]
    exact Finset.mem_union_right _ (List.mem_toFinset.mpr hx)
  have hcard : (vertexSet g \ p2).card + newq.length =
      (vertexSet g \ insert v p).card := by
    rw [h1]
    exact card_sdiff_union_toFinset _ _ _ h2 hnewA h3
  have hcard2 : (vertexSet g \ insert v p).card + 1 = (vertexSet g \ p).card :=
    card_sdiff_insert _ _ v hv hvp
  have hcard3 : (vertexSet g \ p).card ≤ g.n_vertex := card_sdiff_le_n g p hcount hknd
  have hle2 : newq.length + (vertexSet g \ p2).card ≤ g.n_vertex := by
    omega
  obtain ⟨o', p'', hrun, hnd', hset', hsub', hclo'⟩ :=
    bfsLoop_spec g hcl g.n_vertex newq p2 hnewA hnqp2 h2 hle2
  have hvp'' : v ∈ p'' := hsub' (hinsp2 (Finset.mem_insert_self v p))
  refine ⟨v :: o', p'', ?_, ?_, ?_, ?_, ?_, hvp''⟩
  · show bfsLoop g (g.n_vertex + 1) [v] p = some (v :: o', p'')
    rw [bfsLoop_succ, ← hnewq, ← hp2def]
    rw [show ([] : List V) ++ newq = newq from rfl, hrun]
    rfl
  · refine List.nodup_cons.mpr ⟨?_, hnd'⟩
    intro hvo
    have hvin : v ∈ newq.toFinset ∪ ( p'' \ p2) := by
      rw [← hset']
      exact List.mem_toFinset.mpr hvo
    rcases Finset.mem_union.mp hvin with h | h
    · exact (h3 v (List.mem_toFinset.mp h)) (Finset.mem_insert_self v p)
    · exact (Finset.mem_sdiff.mp h).2 (hinsp2 (Finset.mem_insert_self v p))
  · rw [List.toFinset_cons, hset']
    ext x
    simp only [Finset.mem_insert, Finset.mem_union, Finset.mem_sdiff,
      List.mem_toFinset]
    constructor
    · rintro (rfl | h | ⟨h5, h6⟩)
      · exact ⟨hvp'', hvp⟩
      · refine ⟨hsub' (hnqp2 x h), fun hc => (h3 x h) (Finset.mem_insert_of_mem hc)⟩
      · exact ⟨h5, fun hc => h6 (hinsp2 (Finset.mem_insert_of_mem hc))⟩
    · rintro ⟨h5, h6⟩
      by_cases hxv : x = v
      · exact Or.inl hxv
      · by_cases hx2 : x ∈ p2
        · rw [h1] at hx2
          rcases Finset.mem_union.mp hx2 with h | h
          · rcases Finset.mem_insert.mp h with h | h
            · exact absurd h hxv
            · exact absurd h h6
          · exact Or.inr (Or.inl (List.mem_toFinset.mp h))
        · exact Or.inr (Or.inr ⟨h5, hx2⟩)
  · exact ((Finset.subset_insert v p).trans hinsp2).trans hsub'
  · intro x hx
    rcases Finset.mem_union.mp (hclo' hx) with h | h
    · rw [h1] at h
      rcases Finset.mem_union.mp h with h | h
      · rcases Finset.mem_insert.mp h with rfl | h
        · exact Finset.mem_union_right _ hv
        · exact Finset.mem_union_left _ h
      · exact Finset.mem_union_right _ (hnewA x (List.mem_toFinset.mp h))
    · exact Finset.mem_union_right _ h

theorem traverseFold_cons (strat : V → Finset V → Option (List V × Finset V))
    (k : V) (rest : List V) (p : Finset V) :
    traverseFold strat (k :: rest) p =
      if k ∈ p then traverseFold strat rest p
      else
        match strat k p with
        | none => none
        | some (o, p') =>
            (traverseFold strat rest p').map (fun r => (o ++ r.1, r.2)) := rfl

theorem traverseFold_spec (g : Graph V)
    (strat : V → Finset V → Option (List V × Finset V))
    (hstrat : ∀ v p, v ∈ vertexSet g → v ∉ p →
      ∃ o p', strat v p = some (o, p') ∧ o.Nodup ∧ o.toFinset = p' \ p ∧
        p ⊆ p' ∧ p' ⊆ p ∪ vertexSet g ∧ v ∈ p') :
    ∀ ks p, (∀ k ∈ ks, k ∈ vertexSet g) →
      ∃ o p', traverseFold strat ks p = some (o, p') ∧
        o.Nodup ∧ o.toFinset = p' \ p ∧ p ⊆ p' ∧ p' ⊆ p ∪ vertexSet g ∧
        (∀ k ∈ ks, k ∈ p') := by
  intro ks
  induction ks with
  | nil =>
      intro p hks
      exact ⟨[], p, rfl, List.nodup_nil, by simp, Finset.Subset.refl p,
        Finset.subset_union_left, fun k hk => absurd hk (List.not_mem_nil k)⟩
  | cons k rest ih =>
      intro p hks
      by_cases hk : k ∈ p
      · obtain ⟨o, p', hrun, hnd, hset, hsub, hclo, hmem⟩ :=
          ih p (fun k' hk' => hks k' (List.mem_cons_of_mem _ hk'))
        refine ⟨o, p', ?_, hnd, hset, hsub, hclo, ?_⟩
        · rw [traverseFold_cons, if_pos hk]
          exact hrun
        · intro k' hk'
          rcases List.mem_cons.mp hk' with rfl | h
          · exact hsub hk
          · exact hmem k' h
      · obtain ⟨o1, p1, hrun1, hnd1, hset1, hsub1, hclo1, hk1⟩ :=
          hstrat k p (hks k (List.mem_cons_self _ _)) hk
        obtain ⟨o2, p2, hrun2, hnd2, hset2, hsub2, hclo2, hmem2⟩ :=
          ih p1 (fun k' hk' => hks k' (List.mem_cons_of_mem _ hk'))
        refine ⟨o1 ++ o2, p2, ?_, ?_, ?_, hsub1.trans hsub2, ?_, ?_⟩
        · rw [traverseFold_cons, if_neg hk, hrun1]
          show (traverseFold strat rest p1).map (fun r => (o1 ++ r.1, r.2)) =
            some (o1 ++ o2, p2)
          rw [hrun2]
          rfl
        · refine hnd1.append hnd2 ?_
          intro a ha1 ha2
          have h1 : a ∈ p1 \ p := by
            rw [← hset1]
            exact List.mem_toFinset.mpr ha1
          have h2 : a ∈ p2 \ p1 := by
            rw [← hset2]
            exact List.mem_toFinset.mpr ha2
          exact (Finset.mem_sdiff.mp h2).2 (Finset.mem_sdiff.mp h1).1
        · rw [List.toFinset_append, hset1, hset2]
          ext x
          simp only [Finset.mem_union, Finset.mem_sdiff]
          constructor
          · rintro (⟨h1, h2⟩ | ⟨h1, h2⟩)
            · exact ⟨hsub2 h1, h2⟩
            · exact ⟨h1, fun hq => h2 (hsub1 hq)⟩
          · rintro ⟨h1, h2⟩
            by_cases hx : x ∈ p1
            · exact Or.inl ⟨hx, h2⟩
            · exact Or.inr ⟨h1, hx⟩
        · intro x hx
          rcases Finset.mem_union.mp (hclo2 hx) with h | h
          · exact hclo1 h
          · exact Finset.mem_union_right p h
        · intro k' hk'
          rcases List.mem_cons.mp hk' with rfl | h
          · exact hsub2 hk1
          · exact hmem2 k' h

theorem traverseRun_spec (g : Graph V)
    (strat : V → Finset V → Option (List V × Finset V))
    (hstrat : ∀ v p, v ∈ vertexSet g → v ∉ p →
      ∃ o p', strat v p = some (o, p') ∧ o.Nodup ∧ o.toFinset = p' \ p ∧
        p ⊆ p' ∧ p' ⊆ p ∪ vertexSet g ∧ v ∈ p') :
    ∃ out, traverseRun g strat = .ok out ∧ out.Nodup ∧
      out.toFinset = vertexSet g := by
  have hkeysA : ∀ k ∈ keys g, k ∈ vertexSet g := by
    intro k hk
    rw [vertexSet, List.mem_toFinset]
    exact hk
  obtain ⟨o, p', hrun, hnd, hset, hsub, hclo, hall⟩ :=
    traverseFold_spec g strat hstrat (keys g) ∅ hkeysA
  have hp' : p' = vertexSet g := by
    apply Finset.Subset.antisymm
    · intro x hx
      rcases Finset.mem_union.mp (hclo hx) with h | h
      · exact absurd h (Finset.not_mem_empty x)
      · exact h
    · intro x hx
      refine hall x ?_
      rw [vertexSet, List.mem_toFinset] at hx
      exact hx
  refine ⟨o, ?_, hnd, ?_⟩
  · unfold traverseRun
    rw [hrun]
  · rw [hset, hp', Finset.sdiff_empty]

/-- C6: for every graph built from an input list and each of the three
traversal modes, `traverse` succeeds and emits every node value of the
graph exactly once (the emitted list has no duplicates and its set of
entries is the whole vertex set), regardless of component count. -/
theorem C6_traverse_exactly_once (input : List (V × V × Int)) (how : String)
    (h : how = "bfs" ∨ how = "dfs" ∨ how = "rdfs") :
    ∃ out, traverse (buildGraph input) how = .ok out ∧ out.Nodup ∧
      out.toFinset = vertexSet (buildGraph input) := by
  have hwf := GraphWF_buildGraph input
  rcases h with rfl | rfl | rfl
  · have ht : traverse (buildGraph input) "bfs" =
        traverseRun (buildGraph input) (fun v p => bfs (buildGraph input) v p) := by
      unfold traverse
      rw [if_pos rfl]
    rw [ht]
    exact traverseRun_spec _ _ (bfs_spec _ hwf.edgeClosed hwf.countEq hwf.keysNodup)
  · have ht : traverse (buildGraph input) "dfs" =
        traverseRun (buildGraph input)
          (fun v p => dfs_without_recur (buildGraph input)
            (dfsIterFuel (buildGraph input)) [v] p) := by
      unfold traverse
      rw [if_neg (by decide), if_pos rfl]
    rw [ht]
    exact traverseRun_spec _ _
      (dfs_iter_launch_spec _ hwf.edgeClosed hwf.countEq hwf.keysNodup)
  · have ht : traverse (buildGraph input) "rdfs" =
        traverseRun (buildGraph input)
          (fun v p => dfs_with_recur (buildGraph input)
            (dfsRecFuel (buildGraph input)) v p) := by
      unfold traverse
      rw [if_neg (by decide), if_neg (by decide), if_pos rfl]
    rw [ht]
    exact traverseRun_spec _ _
      (dfs_rec_launch_spec _ hwf.edgeClosed hwf.countEq hwf.keysNodup)

/-- Witness for `C6_traverse_exactly_once` on a one-edge input in
breadth-first mode. -/
theorem C6_witness :
    (("bfs" : String) = "bfs" ∨ ("bfs" : String) = "dfs" ∨
      ("bfs" : String) = "rdfs") ∧
    ∃ out, traverse (buildGraph [((0 : Nat), 1, (5 : Int))]) "bfs" = .ok out ∧
      out.Nodup ∧ out.toFinset = vertexSet (buildGraph [((0 : Nat), 1, (5 : Int))]) :=
  ⟨Or.inl rfl, C6_traverse_exactly_once [(0, 1, 5)] "bfs" (Or.inl rfl)⟩

/-- C8: for every graph built from an input list and every start node
in it, the iterative depth-first traversal returns exactly the same
emission sequence (and final visited set) as the recursive one. -/
theorem C8_dfs_iter_eq_rec (input : List (V × V × Int)) (v : V)
    (h : v ∈ keys (buildGraph input)) :
    dfs_without_recur (buildGraph input) (dfsIterFuel (buildGraph input)) [v] ∅ =
      dfs_with_recur (buildGraph input) (dfsRecFuel (buildGraph input)) v ∅ := by
  have hwf := GraphWF_buildGraph input
  refine dfs_iter_launch_eq_rec _ hwf.edgeClosed hwf.countEq hwf.keysNodup v ∅
    ?_ (Finset.not_mem_empty v)
  rw [vertexSet, List.mem_toFinset]
  exact h

/-- Witness for `C8_dfs_iter_eq_rec` on the module's example graph
started at A. -/
theorem C8_witness :
    'A' ∈ keys exampleGraph ∧
    dfs_without_recur exampleGraph (dfsIterFuel exampleGraph) ['A'] ∅ =
      dfs_with_recur exampleGraph (dfsRecFuel exampleGraph) 'A' ∅ :=
  ⟨by decide,
    C8_dfs_iter_eq_rec
      [('A', 'B', 5), ('B', 'A', 5), ('A', 'C', 6), ('C', 'A', 6),
       ('A', 'D', 8), ('D', 'A', 8), ('B', 'C', 7), ('C', 'B', 7),
       ('B', 'D', 10), ('D', 'B', 10), ('C', 'D', 3), ('D', 'C', 3)]
      'A' (by decide)⟩

end FindHam
